import Mathlib

/-!
Verification of the sequential multi-approver approval workflow implemented in
`routers/approvals_router.py` of the onetouchportal repository.

The development shallowly embeds the approval engine: the three relational
tables (`approvals`, `approval_steps`, `approval_actions`) plus the `memos`
and `approval_files` tables are lists of records, and each HTTP route handler
that mutates them becomes a pure function from the database state (plus the
request inputs, the employee directory, and a mail-environment) to the new
database state paired with the response.  SQLite's per-statement UNIQUE
constraint on `(approval_id, step_order)` is modelled by an explicit
uniqueness check on every order-updating statement.  Timestamps are opaque
strings supplied by the caller (`now`), since no claim depends on clock
values.  Python's `str.lower()/casefold()` is modelled by an ASCII case fold
(`_lower`) and `str.strip()`/`str.split()` by structurally recursive
functions over the character list, so that every definition evaluates inside
the kernel; the identifiers in play are ASCII or CJK, where these agree with
Python.

The model covers a single approval request (the routes all operate on one
`approval_id`); the employee directory is passed per call, as the `employees`
table can change between requests.

All ids are the SQLite integer primary keys; the model tracks the
autoincrement counters explicitly.
-/

/-- Python `str.lower()`/`casefold()` on one character, for the ASCII range
(the directory data in play is ASCII and CJK, on which the two agree; CJK
has no case). -/
def _lower_char (c : Char) : Char :=
  if 'A' ≤ c ∧ c ≤ 'Z' then Char.ofNat (c.toNat + 32) else c

/-- Python `str.lower()` (ASCII case folding, see `_lower_char`). -/
def _lower (s : String) : String :=
  ⟨s.data.map _lower_char⟩

/-- Python `str.strip()`: drop leading and trailing whitespace. -/
def _strip (s : String) : String :=
  ⟨((s.data.dropWhile Char.isWhitespace).reverse.dropWhile
      Char.isWhitespace).reverse⟩

/-- Python `str.split()` (no argument): the maximal runs of non-whitespace
characters.  `acc` holds the current word, reversed. -/
def _words_aux : List Char → List Char → List (List Char)
  | [], acc => if acc.isEmpty then [] else [acc.reverse]
  | c :: cs, acc =>
    if c.isWhitespace then
      if acc.isEmpty then _words_aux cs [] else acc.reverse :: _words_aux cs []
    else _words_aux cs (c :: acc)

/-- Python `" ".join(words)`. -/
def _join_space : List String → String
  | [] => ""
  | [w] => w
  | w :: ws => w ++ " " ++ _join_space ws

/-- `_norm` from the source: collapse all whitespace runs to single spaces and
strip the ends (Python `" ".join(str(s or "").split())`). -/
def _norm (s : String) : String :=
  _join_space ((_words_aux s.data []).map (fun w => ⟨w⟩))

/-- `_normi` from the source: `_norm` then casefold. -/
def _normi (s : String) : String :=
  _lower (_norm s)

/-- `_combine_label` from the source: the english name and the local name
joined by a space when both are non-blank after trimming, otherwise whichever
one is non-blank. -/
def _combine_label (english_name name : String) : String :=
  let a := _strip english_name
  let b := _strip name
  if a ≠ "" ∧ b ≠ "" then a ++ " " ++ b
  else if a ≠ "" then a else b

/-- `_normalize_scope` from the source.  `none` models Python `None`; a falsy
value defaults to `"restricted"` before trimming/lowercasing, and anything
outside `{org, restricted, top_secret}` is silently mapped to
`"restricted"`. -/
def _normalize_scope (raw_scope : Option String) : String :=
  let base := match raw_scope with
    | none => "restricted"
    | some r => if r = "" then "restricted" else r
  let scope := _lower (_strip base)
  if scope = "org" ∨ scope = "restricted" ∨ scope = "top_secret" then scope
  else "restricted"

/-- One row of the `employees` directory table (the three columns the
approval engine reads; SQL NULL is modelled as `""`, which is how the source
coalesces it before use). -/
structure Employee where
  english_name : String
  name : String
  email : String
deriving Repr, DecidableEq, Inhabited

/-- `_find_employee_by_display` from the source: normalize the input and scan
the rows that have a non-blank english or local name, returning the first row
whose english name, local name, or combined label matches; the result is
`(english_name, name, trimmed email)`. -/
def _find_employee_by_display (emps : List Employee) (display_name : String) :
    Option (String × String × String) :=
  let target := _normi display_name
  if target = "" then none
  else
    ((emps.filter (fun r => _strip r.english_name != "" || _strip r.name != "")).find?
      (fun r => target == _normi r.english_name || target == _normi r.name ||
                target == _normi (_combine_label r.english_name r.name))).map
      (fun r => (r.english_name, r.name, _strip r.email))

/-- `email_by_name` from the source: the resolved employee's email, but only
when it contains an `@`. -/
def email_by_name (emps : List Employee) (any_name : String) : Option String :=
  match _find_employee_by_display emps any_name with
  | none => none
  | some (_, _, mail) => if mail.data.contains '@' then some mail else none

/-- The normalized display forms of one directory row used by
`user_identity_keys`: english name, local name, combined label, and email
local part, keeping only the truthy (non-empty) raw forms. -/
def _row_forms (r : Employee) : List String :=
  let combo := _combine_label r.english_name r.name
  let local_part : String :=
    if r.email ≠ "" then ⟨r.email.data.takeWhile (· ≠ '@')⟩ else ""
  ([r.english_name, r.name, combo, local_part].filter (· ≠ "")).map _normi

/-- `user_identity_keys` from the source: start from the normalized login (if
non-empty); for every directory row whose form set contains the login, union
in that row's entire form set; finally drop empty keys.  Modelled as a list,
with membership as the set-membership of the source's Python `set`. -/
def user_identity_keys (emps : List Employee) (login_user : String) : List String :=
  let u := _normi login_user
  let base := if u ≠ "" then [u] else []
  let keys := emps.foldl
    (fun acc r => if u ∈ _row_forms r then acc ++ _row_forms r else acc) base
  keys.filter (· ≠ "")

/-- The state of the outbound-mail collaborator: whether SMTP_HOST/USER/PASS
are configured, and whether the SMTP transport raises when a send is actually
attempted. -/
structure MailEnv where
  smtp_configured : Bool
  transport_raises : Bool
deriving Repr, DecidableEq, Inhabited

/-- `send_mail_safe` from the source.  Despite its name the function has no
try/except: it returns without contacting the network when no recipient has
an `@` or SMTP is unconfigured (these paths only print), but when it does
contact the network a transport failure propagates, modelled by
`Except.error`. -/
def send_mail_safe (env : MailEnv) (to_list : List String) : Except String Unit :=
  let to_ok := to_list.filter (fun t => t != "" && t.data.contains '@')
  if to_ok.isEmpty then .ok ()
  else if !env.smtp_configured then .ok ()
  else if env.transport_raises then .error "SMTPException" else .ok ()

/-- The `permissions` cookie as the engine sees it: missing, unparsable JSON,
or a parsed flag map. -/
inductive PermsCookie
  | absent
  | malformed
  | valid (entries : List (String × Bool))
deriving Repr, DecidableEq, Inhabited

/-- `can_use_approvals` from the source: admins always pass; otherwise the
parsed cookie's `approvals` flag decides, with any parse failure (or missing
cookie) meaning `false`. -/
def can_use_approvals (role : Option String) (permissions : PermsCookie) : Bool :=
  if role = some "admin" then true
  else match permissions with
    | .absent => false
    | .malformed => false
    | .valid es => (es.lookup "approvals").getD false

/-- One row of `approval_steps`. -/
structure Step where
  id : Nat
  step_order : Nat
  approver_name : String
  approver_email : Option String
  status : String
  decided_at : Option String
  comment : Option String
deriving Repr, DecidableEq, Inhabited

/-- The `approvals` row for the request under consideration. -/
structure Approval where
  id : Nat
  subject : String
  description : String
  confidential : String
  requester : String
  requester_dept : String
  submitted_at : String
  status : String
  current_step : Int
  view_scope : String
  publish_memo : Nat
deriving Repr, DecidableEq, Inhabited

/-- One row of the `approval_actions` audit table. -/
structure ActionRow where
  id : Nat
  step_id : Option Nat
  actor : String
  action : String
  note : String
  created_at : String
deriving Repr, DecidableEq, Inhabited

/-- One row of the `memos` announcements table. -/
structure Memo where
  title : String
  body : String
  visibility : String
  created_at : String
  author : String
  source : String
  source_id : Nat
deriving Repr, DecidableEq, Inhabited

/-- One row of the `approval_files` attachments table (the fields the claims
touch). -/
structure FileRow where
  id : Nat
  orig_name : String
  uploaded_by : String
  uploaded_at : String
deriving Repr, DecidableEq, Inhabited

/-- The database state of one approval request: its row, its steps, its audit
trail, attachments, the published memos, and the autoincrement counters. -/
structure DB where
  approval : Approval
  steps : List Step
  actions : List ActionRow
  files : List FileRow
  memos : List Memo
  next_step_id : Nat
  next_action_id : Nat
  next_file_id : Nat
deriving Repr, DecidableEq, Inhabited

/-- Responses of the route handlers, reduced to the observable outcome
(redirects, JSON error codes, HTML error pages). -/
inductive Resp
  | redirect_login
  | permission_denied
  | not_found
  | error400 (code : String)
  | error403 (code : String)
  | error404 (code : String)
  | error409 (code : String)
  | redirect_detail
  | redirect_detail_err (code : String)
  | json_ok
deriving Repr, DecidableEq, Inhabited

/-- Strict lexicographic order on `(step_order, id)` — the `ORDER BY
step_order, id` of `_renumber_steps`. -/
def stepLexLtb (t s : Step) : Bool :=
  t.step_order < s.step_order || (t.step_order == s.step_order && t.id < s.id)

/-- The index a row receives in the `ORDER BY step_order, id` scan of
`_renumber_steps`: the number of rows strictly before it in that order
(row keys are distinct because `id` is the primary key). -/
def lexRank (steps : List Step) (s : Step) : Nat :=
  steps.countP (fun t => stepLexLtb t s)

/-- `_renumber_steps` from the source: every row's `step_order` is updated
(by id) to its index in the `ORDER BY step_order, id` sequence. -/
def _renumber_steps (steps : List Step) : List Step :=
  steps.map (fun s => { s with step_order := lexRank steps s })

/-- Insertion step of the sort used to model SQL `ORDER BY`. -/
def insertByLe {α : Type} (le : α → α → Bool) (x : α) : List α → List α
  | [] => [x]
  | y :: ys => if le x y then x :: y :: ys else y :: insertByLe le x ys

/-- Insertion sort used to model SQL `ORDER BY` and Python `sorted`. -/
def sortByLe {α : Type} (le : α → α → Bool) : List α → List α
  | [] => []
  | x :: xs => insertByLe le x (sortByLe le xs)

/-- Python `sorted` on a list of SQLite integers. -/
def sortedInts (l : List Int) : List Int :=
  sortByLe (fun a b => decide (a ≤ b)) l

/-- The form fields of `POST /approvals/create`.  `approver_chain` is the
result of `json.loads`: `none` models a parse failure or a non-list payload
(both of which the source turns into an empty chain). -/
structure CreateForm where
  subject : String
  description : String
  requester : String
  requester_dept : String
  view_scope : String
  approver_chain : Option (List String)
  confidential : String
  publish_memo : String
deriving Repr, DecidableEq, Inhabited

/-- The truthy strings the source accepts for the `publish_memo` checkbox. -/
def _truthy_flag (s : String) : Bool :=
  _lower (_strip s) == "1" || _lower (_strip s) == "true" ||
    _lower (_strip s) == "on" || _lower (_strip s) == "yes"

/-- The resolution of a chosen display name into the stored
`(approver_name, approver_email)` pair, shared by `create_approval` and
`add_approver_step`: a resolved row stores `name or english_name or raw`,
with the email kept only when it contains `@`; an unresolved name is stored
as the trimmed raw text with no email.  (`create_approval` passes the raw
text, whose buggy `.trim()` branch falls back to `.strip()`.) -/
def _resolve_approver (emps : List Employee) (disp : String) :
    String × Option String :=
  match _find_employee_by_display emps disp with
  | some (en, nm, mail) =>
      (if nm ≠ "" then nm else if en ≠ "" then en else disp,
       if mail.data.contains '@' then some mail else none)
  | none => (_strip disp, none)

/-- The step row built for the `idx`-th entry of the approver chain at
creation time (`p = (idx, display_name)`). -/
def _chain_step (emps : List Employee) (p : Nat × String) : Step :=
  { id := p.1 + 1, step_order := p.1,
    approver_name := (_resolve_approver emps p.2).1,
    approver_email := (_resolve_approver emps p.2).2,
    status := "pending", decided_at := none, comment := none }

/-- `create_approval` from the source (without file uploads, which touch only
`approval_files`): validates the chain, inserts the request with
`status='pending', current_step=0` and the normalized scope, one pending step
per chain entry with `step_order = idx`, logs the `submit` action, and
notifies step 0's approver (a transport failure at that point propagates). -/
def create_approval (env : MailEnv) (emps : List Employee) (form : CreateForm)
    (user : Option String) (role : Option String) (permissions : PermsCookie)
    (now : String) : Option DB × Except String Resp :=
  match user with
  | none => (none, .ok .redirect_login)
  | some _ =>
    if ¬ can_use_approvals role permissions then (none, .ok .permission_denied)
    else
      let chain := form.approver_chain.getD []
      if chain.isEmpty then (none, .ok (.error400 "at_least_one_approver_required"))
      else
        let pm := if _truthy_flag form.publish_memo then 1 else 0
        let a : Approval :=
          { id := 1, subject := form.subject, description := form.description,
            confidential := form.confidential, requester := form.requester,
            requester_dept := form.requester_dept, submitted_at := now,
            status := "pending", current_step := 0,
            view_scope := _normalize_scope (some form.view_scope), publish_memo := pm }
        let steps := chain.enum.map (_chain_step emps)
        let act : ActionRow :=
          { id := 1, step_id := none, actor := form.requester, action := "submit",
            note := "", created_at := now }
        let db : DB :=
          { approval := a, steps := steps, actions := [act], files := [], memos := [],
            next_step_id := chain.length + 1, next_action_id := 2, next_file_id := 1 }
        let mail := match steps.find? (fun s => s.step_order == 0) with
          | none => Except.ok ()
          | some s0 => send_mail_safe env (match s0.approver_email with
              | some m => if m ≠ "" then [m] else []
              | none => [])
        (some db, mail.map (fun _ => Resp.redirect_detail))

/-- `_is_requester_or_admin` from the source (the request row always exists
in this single-request model). -/
def _is_requester_or_admin (db : DB) (user : String) (role : Option String) : Bool :=
  role == some "admin" || db.approval.requester == user

/-- The status decision of `do_action`: `approve` and `ack` both mark the
step `approved`, `reject` marks it `rejected`, anything else is unsupported. -/
def _decide_new_status (action : String) : Option String :=
  if action = "approve" ∨ action = "ack" then some "approved"
  else if action = "reject" then some "rejected" else none

/-- The `UPDATE approval_steps SET status=?, decided_at=?, comment=? WHERE
id=?` statement of `do_action`, as a per-row function. -/
def _decide_step_upd (sid : Nat) (ns now comment : String) (t : Step) : Step :=
  if t.id = sid then
    { t with status := ns, decided_at := some now, comment := some comment }
  else t

/-- `do_action` from the source (`POST /approvals/{id}/action`): the decide
handler.  Commits happen before the notification mails, so the returned state
reflects the committed transaction even when the mail transport raises (in
which case the exception propagates, modelled by `Except.error`). -/
def do_action (env : MailEnv) (emps : List Employee) (db : DB)
    (user : Option String) (role : Option String) (permissions : PermsCookie)
    (action : String) (comment : String) (now : String) :
    DB × Except String Resp :=
  match user with
  | none => (db, .ok .redirect_login)
  | some u =>
    if ¬ can_use_approvals role permissions then (db, .ok .permission_denied)
    else
      let is_ack := action = "ack"
      if ¬ is_ack ∧ _strip comment = "" then
        (db, .ok (.redirect_detail_err "comment_required"))
      else
        let comment := if _strip comment = "" then "已知會" else _strip comment
        let a := db.approval
        let cur_step := a.current_step
        match db.steps.find? (fun s =>
            (s.step_order : Int) == cur_step && s.status == "pending") with
        | none => (db, .ok (.error400 "no_active_step"))
        | some s =>
          if _normi s.approver_name ∉ user_identity_keys emps u then
            (db, .ok (.error403 "not_your_step"))
          else
            match _decide_new_status action with
            | none => (db, .ok (.error400 "unsupported_action"))
            | some ns =>
              let steps1 := db.steps.map (_decide_step_upd s.id ns now comment)
              let act : ActionRow :=
                { id := db.next_action_id, step_id := some s.id, actor := u,
                  action := action, note := comment, created_at := now }
              let db1 : DB :=
                { db with
                  steps := steps1
                  actions := db.actions ++ [act]
                  next_action_id := db.next_action_id + 1 }
              let requester_rcpt := match email_by_name emps a.requester with
                | some m => [m]
                | none => []
              if action = "reject" then
                let db2 := { db1 with
                  approval := { a with status := "rejected", current_step := -1 } }
                (db2, (send_mail_safe env requester_rcpt).map
                  (fun _ => Resp.redirect_detail))
              else
                let total_steps := db.steps.length
                let next_step := cur_step + 1
                if (total_steps : Int) ≤ next_step then
                  let db2 := { db1 with
                    approval := { a with status := "approved", current_step := -1 } }
                  let db3 := if a.publish_memo = 1 then
                      let visibility0 := _normalize_scope (some a.view_scope)
                      let visibility :=
                        if visibility0 = "top_secret" then "restricted" else visibility0
                      { db2 with memos := db2.memos ++
                        [{ title := a.subject, body := a.description,
                           visibility := visibility, created_at := now,
                           author := a.requester, source := "approvals",
                           source_id := a.id }] }
                    else db2
                  (db3, (send_mail_safe env requester_rcpt).map
                    (fun _ => Resp.redirect_detail))
                else
                  let db2 := { db1 with approval := { a with current_step := next_step } }
                  let mail := match db2.steps.find? (fun t =>
                      (t.step_order : Int) == next_step) with
                    | none => Except.ok ()
                    | some nx => send_mail_safe env (match nx.approver_email with
                        | some m => if m ≠ "" then [m] else []
                        | none => [])
                  (db2, mail.map (fun _ => Resp.redirect_detail))

/-- `add_approver_step` from the source (`POST /approvals/{id}/steps/add`):
append one approver at `max(step_order)+1` after the duplicate-name check,
log `add_approver`, then renumber. -/
def add_approver_step (emps : List Employee) (db : DB) (display_name : String)
    (user : Option String) (role : Option String) (permissions : PermsCookie)
    (now : String) : DB × Except String Resp :=
  match user with
  | none => (db, .ok .redirect_login)
  | some u =>
    if ¬ can_use_approvals role permissions then (db, .ok .permission_denied)
    else if ¬ _is_requester_or_admin db u role then
      (db, .ok (.error403 "only_requester_or_admin"))
    else
      let disp := _strip display_name
      if disp = "" then (db, .ok (.error400 "invalid_display_name"))
      else
        let saved := _resolve_approver emps disp
        if db.approval.status ≠ "pending" then
          (db, .ok (.error400 "approval_not_pending"))
        else if (db.steps.filter (fun t => t.approver_name != "")).any
            (fun t => _normi t.approver_name == _normi saved.1) then
          (db, .ok (.error400 "duplicated_name"))
        else
          let next_order := match (db.steps.map (·.step_order)).max? with
            | some m => m + 1
            | none => 0
          let st : Step :=
            { id := db.next_step_id, step_order := next_order,
              approver_name := saved.1, approver_email := saved.2,
              status := "pending", decided_at := none, comment := none }
          let act : ActionRow :=
            { id := db.next_action_id, step_id := some st.id, actor := u,
              action := "add_approver", note := "新增簽核人：" ++ saved.1,
              created_at := now }
          let db1 := { db with
            steps := db.steps ++ [st]
            actions := db.actions ++ [act]
            next_step_id := db.next_step_id + 1
            next_action_id := db.next_action_id + 1 }
          ({ db1 with steps := _renumber_steps db1.steps }, .ok .json_ok)

/-- `delete_approver_step` from the source (`POST
/approvals/{id}/steps/{sid}/delete`): only a pending step strictly after the
current one may be deleted; its `approval_actions` rows are deleted with it,
a `delete_step` action is inserted, and the chain is renumbered. -/
def delete_approver_step (db : DB) (step_id : Nat) (user : Option String)
    (role : Option String) (permissions : PermsCookie) (now : String) :
    DB × Except String Resp :=
  match user with
  | none => (db, .ok .redirect_login)
  | some u =>
    if ¬ can_use_approvals role permissions then (db, .ok .permission_denied)
    else if ¬ _is_requester_or_admin db u role then
      (db, .ok (.error403 "only_requester_or_admin"))
    else if db.approval.status ≠ "pending" then
      (db, .ok (.error400 "approval_not_pending"))
    else
      let cur_step := db.approval.current_step
      match db.steps.find? (fun t => t.id == step_id) with
      | none => (db, .ok (.error404 "step_not_found"))
      | some s =>
        if s.status ≠ "pending" ∨ (s.step_order : Int) ≤ cur_step then
          (db, .ok (.error400 "cannot_delete_this_step"))
        else
          let act : ActionRow :=
            { id := db.next_action_id, step_id := some step_id, actor := u,
              action := "delete_step", note := "刪除簽核人：" ++ s.approver_name,
              created_at := now }
          let db1 := { db with
            actions :=
              (db.actions.filter (fun r : ActionRow => r.step_id ≠ some step_id)) ++ [act]
            steps := db.steps.filter (fun t => t.id ≠ step_id)
            next_action_id := db.next_action_id + 1 }
          ({ db1 with steps := _renumber_steps db1.steps }, .ok .json_ok)

/-- The order band used by the reorder handler to dodge the unique index. -/
def SHIFT : Nat := 100000

/-- One `UPDATE approval_steps SET step_order = step_order + SHIFT WHERE
id=?` under the `(approval_id, step_order)` unique index: `none` models the
`sqlite3.IntegrityError` raised when the shifted value collides with a
different row. -/
def shiftOneChecked (steps : List Step) (sid : Int) : Option (List Step) :=
  match steps.find? (fun r => (r.id : Int) == sid) with
  | none => some steps
  | some r =>
    if steps.any (fun t => (t.id : Int) != sid && t.step_order == r.step_order + SHIFT)
    then none
    else some (steps.map (fun t =>
      if (t.id : Int) = sid then { t with step_order := t.step_order + SHIFT } else t))

/-- The `executemany` shift pass of `reorder_pending_steps`, one statement
per eligible id. -/
def shiftSteps : List Step → List Int → Option (List Step)
  | steps, [] => some steps
  | steps, sid :: rest => match shiftOneChecked steps sid with
    | none => none
    | some st => shiftSteps st rest

/-- One `UPDATE approval_steps SET step_order=? WHERE id=?` under the unique
index; `none` models the `sqlite3.IntegrityError` on collision with a
different row. -/
def setOrderChecked (steps : List Step) (sid : Int) (new_order : Nat) :
    Option (List Step) :=
  if steps.any (fun t => (t.id : Int) != sid && t.step_order == new_order) then none
  else some (steps.map (fun t =>
    if (t.id : Int) = sid then { t with step_order := new_order } else t))

/-- The write-back loop of `reorder_pending_steps`: assign
`cur_step+1, cur_step+2, …` in the caller-supplied sequence. -/
def assignOrders : List Step → List Int → Nat → Option (List Step)
  | steps, [], _ => some steps
  | steps, sid :: rest, next => match setOrderChecked steps sid next with
    | none => none
    | some st => assignOrders st rest (next + 1)

/-- `reorder_pending_steps` from the source (`POST
/approvals/{id}/steps/reorder`).  `body = none` models a JSON body that
fails to parse into integers.  Eligible rows are the pending steps strictly
after `current_step`, read in `ORDER BY step_order`; the supplied ids must
equal them under Python `sorted` comparison.  An `IntegrityError` in the
write phase rolls the transaction back, renumbers, and returns the 409
`integrity_conflict` response; on success the chain is renumbered after the
commit. -/
def reorder_pending_steps (db : DB) (body : Option (List Int))
    (user : Option String) (role : Option String) (permissions : PermsCookie)
    (now : String) : DB × Except String Resp :=
  match user with
  | none => (db, .ok .redirect_login)
  | some u =>
    if ¬ can_use_approvals role permissions then (db, .ok .permission_denied)
    else if ¬ _is_requester_or_admin db u role then
      (db, .ok (.error403 "only_requester_or_admin"))
    else
      match body with
      | none => (db, .ok (.error400 "bad_json"))
      | some new_order_ids =>
        if db.approval.status ≠ "pending" then
          (db, .ok (.error400 "approval_not_pending"))
        else
          let cur_step := db.approval.current_step
          let allowed_ids :=
            (sortByLe (fun s t => decide (s.step_order ≤ t.step_order))
              (db.steps.filter (fun t =>
                t.status == "pending" && decide (cur_step < (t.step_order : Int))))).map
              (fun t => (t.id : Int))
          if sortedInts new_order_ids ≠ sortedInts allowed_ids then
            (db, .ok (.error400 "invalid_ids"))
          else
            match shiftSteps db.steps allowed_ids with
            | none =>
              ({ db with steps := _renumber_steps db.steps },
               .ok (.error409 "integrity_conflict"))
            | some shifted =>
              match assignOrders shifted new_order_ids (cur_step + 1).toNat with
              | none =>
                ({ db with steps := _renumber_steps db.steps },
                 .ok (.error409 "integrity_conflict"))
              | some assigned =>
                let act : ActionRow :=
                  { id := db.next_action_id, step_id := none, actor := u,
                    action := "reorder_steps", note := "調整未簽關卡順序",
                    created_at := now }
                ({ db with
                   steps := _renumber_steps assigned
                   actions := db.actions ++ [act]
                   next_action_id := db.next_action_id + 1 }, .ok .json_ok)

/-- The form fields of `POST /approvals/{id}/edit`. -/
structure EditForm where
  subject : String
  description : String
  confidential : String
  view_scope : String
  publish_memo : String
  requester_dept : String
deriving Repr, DecidableEq, Inhabited

/-- `update_approval_details` from the source: content edit of a pending
request by its requester or an admin; stores the normalized scope and logs
`update_content` exactly when some field changed. -/
def update_approval_details (db : DB) (form : EditForm) (user : Option String)
    (role : Option String) (permissions : PermsCookie) (now : String) :
    DB × Except String Resp :=
  match user with
  | none => (db, .ok .redirect_login)
  | some u =>
    if ¬ can_use_approvals role permissions then (db, .ok .permission_denied)
    else
      let a := db.approval
      if a.status ≠ "pending" then (db, .ok (.redirect_detail_err "not_editable"))
      else if role ≠ some "admin" ∧ a.requester ≠ u then
        (db, .ok (.error403 "cannot_edit"))
      else
        let nvs := _normalize_scope (some form.view_scope)
        let pm := if _truthy_flag form.publish_memo then 1 else 0
        let changed := a.subject ≠ form.subject ∨ a.description ≠ form.description ∨
          a.confidential ≠ form.confidential ∨ a.view_scope ≠ nvs ∨
          a.publish_memo ≠ pm ∨ a.requester_dept ≠ form.requester_dept
        if ¬ changed then (db, .ok .redirect_detail)
        else
          let act : ActionRow :=
            { id := db.next_action_id, step_id := none, actor := u,
              action := "update_content", note := "更新內容", created_at := now }
          ({ db with
             approval := { a with
               subject := form.subject
               description := form.description
               confidential := form.confidential
               view_scope := nvs
               publish_memo := pm
               requester_dept := form.requester_dept }
             actions := db.actions ++ [act]
             next_action_id := db.next_action_id + 1 }, .ok .redirect_detail)

/-- `add_approval_attachments` from the source: upload attachments to a
pending request (file contents abstracted to their names); inserts the file
rows and one `add_attachment` action. -/
def add_approval_attachments (db : DB) (file_names : List String)
    (user : Option String) (role : Option String) (permissions : PermsCookie)
    (now : String) : DB × Except String Resp :=
  match user with
  | none => (db, .ok .redirect_login)
  | some u =>
    if ¬ can_use_approvals role permissions then (db, .ok .permission_denied)
    else
      let valid := file_names.filter (fun n => n != "")
      if valid.isEmpty then (db, .ok (.redirect_detail_err "no_files"))
      else if db.approval.status ≠ "pending" then
        (db, .ok (.redirect_detail_err "not_editable"))
      else if role ≠ some "admin" ∧ db.approval.requester ≠ u then
        (db, .ok (.error403 "cannot_edit"))
      else
        let rows := valid.enum.map (fun p =>
          ({ id := db.next_file_id + p.1, orig_name := p.2, uploaded_by := u,
             uploaded_at := now } : FileRow))
        let act : ActionRow :=
          { id := db.next_action_id, step_id := none, actor := u,
            action := "add_attachment", note := "新增附件", created_at := now }
        ({ db with
           files := db.files ++ rows
           actions := db.actions ++ [act]
           next_file_id := db.next_file_id + valid.length
           next_action_id := db.next_action_id + 1 }, .ok .redirect_detail)

/-- `delete_approval_attachment` from the source: delete one attachment of a
pending request and log `delete_attachment`. -/
def delete_approval_attachment (db : DB) (file_id : Nat) (user : Option String)
    (role : Option String) (permissions : PermsCookie) (now : String) :
    DB × Except String Resp :=
  match user with
  | none => (db, .ok .redirect_login)
  | some u =>
    if ¬ can_use_approvals role permissions then (db, .ok .permission_denied)
    else if db.approval.status ≠ "pending" then
      (db, .ok (.redirect_detail_err "not_editable"))
    else if role ≠ some "admin" ∧ db.approval.requester ≠ u then
      (db, .ok (.error403 "cannot_edit"))
    else
      match db.files.find? (fun f => f.id == file_id) with
      | none => (db, .ok (.error404 "file_not_found"))
      | some f =>
        let act : ActionRow :=
          { id := db.next_action_id, step_id := none, actor := u,
            action := "delete_attachment", note := "刪除附件：" ++ f.orig_name,
            created_at := now }
        ({ db with
           files := db.files.filter (fun g => g.id ≠ file_id)
           actions := db.actions ++ [act]
           next_action_id := db.next_action_id + 1 }, .ok .redirect_detail)

/-- The engine states reachable through the approval workflow: an initial
successful `create_approval`, closed under every mutating route handler
(whatever the inputs and whatever response results — a propagated mail
exception still leaves the committed state). -/
inductive Reach : DB → Prop
  | create (env : MailEnv) (emps : List Employee) (form : CreateForm)
      (user role : Option String) (permissions : PermsCookie) (now : String)
      (db : DB) (r : Except String Resp)
      (h : create_approval env emps form user role permissions now = (some db, r)) :
      Reach db
  | decide (db : DB) (env : MailEnv) (emps : List Employee)
      (user role : Option String) (permissions : PermsCookie)
      (action comment now : String) (hr : Reach db) :
      Reach (do_action env emps db user role permissions action comment now).1
  | add_step (db : DB) (emps : List Employee) (display_name : String)
      (user role : Option String) (permissions : PermsCookie) (now : String)
      (hr : Reach db) :
      Reach (add_approver_step emps db display_name user role permissions now).1
  | delete_step (db : DB) (step_id : Nat) (user role : Option String)
      (permissions : PermsCookie) (now : String) (hr : Reach db) :
      Reach (delete_approver_step db step_id user role permissions now).1
  | reorder (db : DB) (body : Option (List Int)) (user role : Option String)
      (permissions : PermsCookie) (now : String) (hr : Reach db) :
      Reach (reorder_pending_steps db body user role permissions now).1
  | edit (db : DB) (form : EditForm) (user role : Option String)
      (permissions : PermsCookie) (now : String) (hr : Reach db) :
      Reach (update_approval_details db form user role permissions now).1
  | add_files (db : DB) (file_names : List String) (user role : Option String)
      (permissions : PermsCookie) (now : String) (hr : Reach db) :
      Reach (add_approval_attachments db file_names user role permissions now).1
  | delete_file (db : DB) (file_id : Nat) (user role : Option String)
      (permissions : PermsCookie) (now : String) (hr : Reach db) :
      Reach (delete_approval_attachment db file_id user role permissions now).1

/-! ## Generic list lemmas used by the invariant proofs -/

theorem insertByLe_perm {α : Type} (le : α → α → Bool) (x : α) (l : List α) :
    (insertByLe le x l).Perm (x :: l) := by
  induction l with
  | nil => simp [insertByLe]
  | cons y ys ih =>
    simp only [insertByLe]
    split
    · exact List.Perm.refl _
    · exact (List.Perm.cons y ih).trans (List.Perm.swap x y ys)

theorem sortByLe_perm {α : Type} (le : α → α → Bool) (l : List α) :
    (sortByLe le l).Perm l := by
  induction l with
  | nil => simp [sortByLe]
  | cons x xs ih =>
    exact (insertByLe_perm le x (sortByLe le xs)).trans (List.Perm.cons x ih)

theorem mem_sortByLe {α : Type} (le : α → α → Bool) (l : List α) (a : α) :
    a ∈ sortByLe le l ↔ a ∈ l :=
  (sortByLe_perm le l).mem_iff

/-- Index of the first occurrence of `x` (Python `list.index`). -/
def posOf (x : Int) : List Int → Nat
  | [] => 0
  | y :: ys => if y = x then 0 else posOf x ys + 1

theorem posOf_lt_length {x : Int} {l : List Int} (h : x ∈ l) :
    posOf x l < l.length := by
  induction l with
  | nil => cases h
  | cons y ys ih =>
    simp only [posOf, List.length_cons]
    split
    · omega
    · rename_i hne
      have hx : x ∈ ys := by
        rcases List.mem_cons.mp h with h' | h'
        · exact absurd h'.symm hne
        · exact h'
      have := ih hx
      omega

theorem posOf_inj {x y : Int} {l : List Int} (hx : x ∈ l) (hy : y ∈ l)
    (h : posOf x l = posOf y l) : x = y := by
  induction l with
  | nil => cases hx
  | cons z zs ih =>
    simp only [posOf] at h
    by_cases hzx : z = x
    · by_cases hzy : z = y
      · exact hzx.symm.trans hzy
      · rw [if_pos hzx, if_neg hzy] at h
        omega
    · by_cases hzy : z = y
      · rw [if_neg hzx, if_pos hzy] at h
        omega
      · rw [if_neg hzx, if_neg hzy] at h
        have hx' : x ∈ zs := by
          rcases List.mem_cons.mp hx with h' | h'
          · exact absurd h'.symm hzx
          · exact h'
        have hy' : y ∈ zs := by
          rcases List.mem_cons.mp hy with h' | h'
          · exact absurd h'.symm hzy
          · exact h'
        exact ih hx' hy' (by omega)

theorem countP_lt_length {α : Type} {p : α → Bool} {l : List α} {x : α}
    (hx : x ∈ l) (hpx : p x = false) : l.countP p < l.length := by
  have hle := List.countP_le_length p (l := l)
  rcases Nat.lt_or_ge (l.countP p) l.length with h | h
  · exact h
  · exfalso
    have heq : l.countP p = l.length := Nat.le_antisymm hle h
    have := (List.countP_eq_length).mp heq x hx
    rw [hpx] at this
    exact Bool.false_ne_true this

theorem countP_lt_countP {α : Type} {p q : α → Bool} {l : List α} {x : α}
    (hmono : ∀ a ∈ l, p a = true → q a = true) (hx : x ∈ l)
    (hqx : q x = true) (hpx : p x = false) : l.countP p < l.countP q := by
  induction l with
  | nil => cases hx
  | cons y ys ih =>
    have hcle : ys.countP p ≤ ys.countP q :=
      List.countP_mono_left (fun a ha => hmono a (List.mem_cons_of_mem _ ha))
    rcases List.mem_cons.mp hx with hxy | hxys
    · subst hxy
      rw [List.countP_cons, List.countP_cons, hqx, hpx]
      simp only [Bool.false_eq_true, if_false, if_true]
      omega
    · rw [List.countP_cons, List.countP_cons]
      have hrec := ih (fun a ha => hmono a (List.mem_cons_of_mem _ ha)) hxys
      have hyle : (if p y = true then 1 else 0) ≤ (if q y = true then 1 else 0) := by
        by_cases hpy : p y = true
        · rw [if_pos hpy, if_pos (hmono y (List.mem_cons_self _ _) hpy)]
        · rw [if_neg hpy]
          omega
      omega

theorem countP_and_split {α : Type} (p q : α → Bool) (l : List α) :
    l.countP (fun a => p a && q a) + l.countP (fun a => p a && !q a) = l.countP p := by
  induction l with
  | nil => simp
  | cons y ys ih =>
    cases hpy : p y <;> cases hqy : q y <;>
      simp [List.countP_cons, hpy, hqy] <;> omega

/-- Pigeonhole: a duplicate-free list of naturals all below its length
contains every natural below its length. -/
theorem dense_mem {l : List Nat} (hnd : l.Nodup) (hlt : ∀ x ∈ l, x < l.length)
    {k : Nat} (hk : k < l.length) : k ∈ l := by
  have hsub : l.toFinset ⊆ Finset.range l.length := by
    intro a ha
    exact Finset.mem_range.mpr (hlt a (List.mem_toFinset.mp ha))
  have hcard : (Finset.range l.length).card ≤ l.toFinset.card := by
    rw [Finset.card_range, List.toFinset_card_of_nodup hnd]
  have heq := Finset.eq_of_subset_of_card_le hsub hcard
  have : k ∈ l.toFinset := by
    rw [heq]
    exact Finset.mem_range.mpr hk
  exact List.mem_toFinset.mp this

/-- In a duplicate-free list of naturals all below its length, the number of
entries below `o` is exactly `o`, for any `o` up to the length. -/
theorem dense_countP {l : List Nat} (hnd : l.Nodup) (hlt : ∀ x ∈ l, x < l.length)
    {o : Nat} (ho : o ≤ l.length) :
    l.countP (fun x => decide (x < o)) = o := by
  rw [List.countP_eq_length_filter]
  have hfnd : (l.filter (fun x => decide (x < o))).Nodup := hnd.filter _
  have hft : (l.filter (fun x => decide (x < o))).toFinset = Finset.range o := by
    ext k
    simp only [List.mem_toFinset, List.mem_filter, Finset.mem_range, decide_eq_true_eq]
    constructor
    · exact fun h => h.2
    · intro hk
      exact ⟨dense_mem hnd hlt (Nat.lt_of_lt_of_le hk ho), hk⟩
  have := List.toFinset_card_of_nodup hfnd
  rw [hft, Finset.card_range] at this
  omega

/-! ## Properties of `_renumber_steps` -/

theorem stepLexLtb_irrefl (s : Step) : stepLexLtb s s = false := by
  simp [stepLexLtb]

theorem stepLexLtb_trans {a b c : Step} (h1 : stepLexLtb a b = true)
    (h2 : stepLexLtb b c = true) : stepLexLtb a c = true := by
  simp only [stepLexLtb, Bool.or_eq_true, Bool.and_eq_true, decide_eq_true_eq,
    beq_iff_eq] at h1 h2 ⊢
  omega

theorem stepLexLtb_total {t s : Step}
    (h : ¬(t.step_order = s.step_order ∧ t.id = s.id)) :
    stepLexLtb t s = true ∨ stepLexLtb s t = true := by
  simp only [stepLexLtb, Bool.or_eq_true, Bool.and_eq_true, decide_eq_true_eq,
    beq_iff_eq]
  rcases Decidable.not_and_iff_or_not.mp h with h' | h' <;> omega

theorem lexRank_lt_length {steps : List Step} {s : Step} (hs : s ∈ steps) :
    lexRank steps s < steps.length :=
  countP_lt_length hs (stepLexLtb_irrefl s)

theorem lexRank_lt_of_lex {steps : List Step} {t s : Step} (ht : t ∈ steps)
    (h : stepLexLtb t s = true) : lexRank steps t < lexRank steps s :=
  countP_lt_countP (fun _ _ ha => stepLexLtb_trans ha h) ht h (stepLexLtb_irrefl t)

theorem lexRank_ne {steps : List Step} {t s : Step} (ht : t ∈ steps)
    (hs : s ∈ steps) (hk : ¬(t.step_order = s.step_order ∧ t.id = s.id)) :
    lexRank steps t ≠ lexRank steps s := by
  rcases stepLexLtb_total hk with h | h
  · exact Nat.ne_of_lt (lexRank_lt_of_lex ht h)
  · exact Nat.ne_of_gt (lexRank_lt_of_lex hs h)

theorem renumber_length (steps : List Step) :
    (_renumber_steps steps).length = steps.length := by
  simp [_renumber_steps]

theorem mem_renumber {steps : List Step} {s' : Step} :
    s' ∈ _renumber_steps steps ↔
      ∃ s ∈ steps, s' = { s with step_order := lexRank steps s } := by
  simp only [_renumber_steps, List.mem_map]
  constructor
  · rintro ⟨s, hs, rfl⟩
    exact ⟨s, hs, rfl⟩
  · rintro ⟨s, hs, rfl⟩
    exact ⟨s, hs, rfl⟩

theorem renumber_map_id (steps : List Step) :
    (_renumber_steps steps).map (·.id) = steps.map (·.id) := by
  simp only [_renumber_steps, List.map_map]
  rfl

theorem renumber_orders_nodup {steps : List Step}
    (hids : (steps.map (·.id)).Nodup) :
    ((_renumber_steps steps).map (·.step_order)).Nodup := by
  have hp : steps.Pairwise (fun a b => a.id ≠ b.id) := List.pairwise_map.mp hids
  have hp2 : steps.Pairwise
      (fun a b => lexRank steps a ≠ lexRank steps b) :=
    hp.imp_of_mem (fun ha hb hne => lexRank_ne ha hb (fun hk => hne hk.2))
  simp only [_renumber_steps, List.map_map]
  exact List.pairwise_map.mpr hp2

theorem renumber_orders_lt {steps : List Step} :
    ∀ s' ∈ _renumber_steps steps,
      s'.step_order < (_renumber_steps steps).length := by
  intro s' hs'
  rcases mem_renumber.mp hs' with ⟨s, hs, rfl⟩
  rw [renumber_length]
  exact lexRank_lt_length hs

theorem lexRank_eq_countP_order {steps : List Step}
    (hnd : (steps.map (·.step_order)).Nodup) {s : Step} (hs : s ∈ steps) :
    lexRank steps s
      = steps.countP (fun t => decide (t.step_order < s.step_order)) := by
  unfold lexRank
  apply List.countP_congr
  intro t ht
  simp only [stepLexLtb, Bool.or_eq_true, Bool.and_eq_true, decide_eq_true_eq,
    beq_iff_eq]
  constructor
  · rintro (hlt' | ⟨heq, hid⟩)
    · exact hlt'
    · exfalso
      have hts : t = s := List.inj_on_of_nodup_map hnd ht hs heq
      rw [hts] at hid
      omega
  · exact fun h => Or.inl h

theorem dense_countP_orders {steps : List Step}
    (hnd : (steps.map (·.step_order)).Nodup)
    (hlt : ∀ s ∈ steps, s.step_order < steps.length)
    {o : Nat} (ho : o ≤ steps.length) :
    steps.countP (fun t => decide (t.step_order < o)) = o := by
  have hmap : steps.countP (fun t => decide (t.step_order < o))
      = (steps.map (·.step_order)).countP (fun x => decide (x < o)) := by
    rw [List.countP_map]
    rfl
  rw [hmap]
  have hlt' : ∀ x ∈ steps.map (·.step_order),
      x < (steps.map (·.step_order)).length := by
    intro x hx
    rcases List.mem_map.mp hx with ⟨t, ht, rfl⟩
    rw [List.length_map]
    exact hlt t ht
  have ho' : o ≤ (steps.map (·.step_order)).length := by
    rw [List.length_map]
    exact ho
  exact dense_countP hnd hlt' ho'

theorem lexRank_eq_order_of_dense {steps : List Step}
    (hnd : (steps.map (·.step_order)).Nodup)
    (hlt : ∀ s ∈ steps, s.step_order < steps.length)
    {s : Step} (hs : s ∈ steps) : lexRank steps s = s.step_order := by
  rw [lexRank_eq_countP_order hnd hs]
  exact dense_countP_orders hnd hlt (le_of_lt (hlt s hs))

theorem renumber_eq_self_of_dense {steps : List Step}
    (hnd : (steps.map (·.step_order)).Nodup)
    (hlt : ∀ s ∈ steps, s.step_order < steps.length) :
    _renumber_steps steps = steps := by
  unfold _renumber_steps
  have : steps.map (fun s => ({ s with step_order := lexRank steps s } : Step))
      = steps.map (fun s => s) := by
    apply List.map_congr_left
    intro s hs
    rw [lexRank_eq_order_of_dense hnd hlt hs]
  rw [this, List.map_id']

theorem renumber_idem {steps : List Step}
    (hids : (steps.map (·.id)).Nodup) :
    _renumber_steps (_renumber_steps steps) = _renumber_steps steps :=
  renumber_eq_self_of_dense (renumber_orders_nodup hids) renumber_orders_lt

/-! ## The state invariant of the approval engine -/

/-- The three request statuses of the schema comment in `ensure_db`. -/
def statusVals : List String := ["pending", "approved", "rejected"]

/-- The three visibility scopes accepted by `_normalize_scope`. -/
def scopeVals : List String := ["org", "restricted", "top_secret"]

theorem _normalize_scope_mem (r : Option String) :
    _normalize_scope r ∈ scopeVals := by
  simp only [_normalize_scope]
  split
  · rename_i h
    rcases h with h | h | h <;> rw [h] <;> decide
  · decide

/-- The status a step must have given where its order sits relative to the
request's `current_step` pointer. -/
def StepZone (cur : Int) (s : Step) : Prop :=
  ((s.step_order : Int) < cur → s.status = "approved") ∧
  ((s.step_order : Int) = cur → s.status = "pending") ∧
  (cur < (s.step_order : Int) → s.status = "pending")

/-- The inductive invariant of reachable engine states: legal status and
scope values, primary-key distinctness, a dense `0..n-1` step ordering, and
the current-step pointer discipline (a valid index with approved steps
behind it and pending steps from it on while pending; `-1` once resolved). -/
structure EngineInv (db : DB) : Prop where
  status_ok : db.approval.status ∈ statusVals
  scope_ok : db.approval.view_scope ∈ scopeVals
  ids_nodup : (db.steps.map (·.id)).Nodup
  ids_lt : ∀ s ∈ db.steps, s.id < db.next_step_id
  orders_nodup : (db.steps.map (·.step_order)).Nodup
  orders_lt : ∀ s ∈ db.steps, s.step_order < db.steps.length
  pending_ok : db.approval.status = "pending" →
    0 ≤ db.approval.current_step ∧
    db.approval.current_step < (db.steps.length : Int) ∧
    ∀ s ∈ db.steps, StepZone db.approval.current_step s
  resolved_ok : db.approval.status ≠ "pending" → db.approval.current_step = -1

theorem create_steps_order (emps : List Employee) (chain : List String) :
    ((chain.enum.map (_chain_step emps)).map (·.step_order))
      = List.range chain.length := by
  rw [List.map_map, ← List.enum_map_fst chain]
  rfl

theorem create_steps_id (emps : List Employee) (chain : List String) :
    ((chain.enum.map (_chain_step emps)).map (·.id))
      = (List.range chain.length).map (· + 1) := by
  rw [List.map_map, ← List.enum_map_fst chain, List.map_map]
  rfl

theorem inv_create {env : MailEnv} {emps : List Employee} {form : CreateForm}
    {user role : Option String} {permissions : PermsCookie} {now : String}
    {db : DB} {r : Except String Resp}
    (h : create_approval env emps form user role permissions now = (some db, r)) :
    EngineInv db := by
  unfold create_approval at h
  cases user with
  | none => simp at h
  | some u =>
    simp only at h
    split at h
    · simp at h
    · split at h
      · simp at h
      · rename_i hchain
        have hne : ¬(form.approver_chain.getD []).length = 0 := by
          intro h0
          exact hchain (List.isEmpty_iff_length_eq_zero.mpr h0)
        rw [Prod.mk.injEq] at h
        obtain ⟨h1, _⟩ := h
        injection h1 with h1
        subst h1
        constructor
        · show ("pending" : String) ∈ statusVals
          decide
        · exact _normalize_scope_mem (some form.view_scope)
        · show (((form.approver_chain.getD []).enum.map (_chain_step emps)).map
            (·.id)).Nodup
          rw [create_steps_id]
          exact (List.nodup_range _).map (fun a b hab => by omega)
        · intro s hs
          show s.id < (form.approver_chain.getD []).length + 1
          have : s.id ∈ ((form.approver_chain.getD []).enum.map
              (_chain_step emps)).map (·.id) := List.mem_map_of_mem _ hs
          rw [create_steps_id] at this
          rcases List.mem_map.mp this with ⟨k, hk, hks⟩
          have := List.mem_range.mp hk
          omega
        · show (((form.approver_chain.getD []).enum.map (_chain_step emps)).map
            (·.step_order)).Nodup
          rw [create_steps_order]
          exact List.nodup_range _
        · intro s hs
          have : s.step_order ∈ ((form.approver_chain.getD []).enum.map
              (_chain_step emps)).map (·.step_order) := List.mem_map_of_mem _ hs
          rw [create_steps_order] at this
          have hlt := List.mem_range.mp this
          show s.step_order < ((form.approver_chain.getD []).enum.map
            (_chain_step emps)).length
          rw [List.length_map, List.enum_length]
          exact hlt
        · intro _
          refine ⟨le_refl 0, ?_, ?_⟩
          · show (0 : Int) < (((form.approver_chain.getD []).enum.map
              (_chain_step emps)).length : Int)
            rw [List.length_map, List.enum_length]
            omega
          · intro s hs
            rcases List.mem_map.mp hs with ⟨p, hp, rfl⟩
            refine ⟨?_, fun _ => rfl, fun _ => rfl⟩
            intro hlt0
            have hneg : ((p.1 : Int)) < 0 := hlt0
            exact absurd hneg (by omega)
        · intro hns
          exact absurd rfl hns

theorem inv_edit {db : DB} {form : EditForm} {user role : Option String}
    {permissions : PermsCookie} {now : String} (hInv : EngineInv db) :
    EngineInv (update_approval_details db form user role permissions now).1 := by
  unfold update_approval_details
  cases user with
  | none => exact hInv
  | some u =>
    simp only
    repeat' split
    all_goals
      first
        | exact hInv
        | exact
            { status_ok := hInv.status_ok
              scope_ok := _normalize_scope_mem (some form.view_scope)
              ids_nodup := hInv.ids_nodup
              ids_lt := hInv.ids_lt
              orders_nodup := hInv.orders_nodup
              orders_lt := hInv.orders_lt
              pending_ok := hInv.pending_ok
              resolved_ok := hInv.resolved_ok }

theorem inv_add_files {db : DB} {file_names : List String}
    {user role : Option String} {permissions : PermsCookie} {now : String}
    (hInv : EngineInv db) :
    EngineInv (add_approval_attachments db file_names user role permissions now).1 := by
  unfold add_approval_attachments
  cases user with
  | none => exact hInv
  | some u =>
    simp only
    repeat' split
    all_goals
      first
        | exact hInv
        | exact
            { status_ok := hInv.status_ok
              scope_ok := hInv.scope_ok
              ids_nodup := hInv.ids_nodup
              ids_lt := hInv.ids_lt
              orders_nodup := hInv.orders_nodup
              orders_lt := hInv.orders_lt
              pending_ok := hInv.pending_ok
              resolved_ok := hInv.resolved_ok }

theorem inv_delete_file {db : DB} {file_id : Nat} {user role : Option String}
    {permissions : PermsCookie} {now : String} (hInv : EngineInv db) :
    EngineInv (delete_approval_attachment db file_id user role permissions now).1 := by
  unfold delete_approval_attachment
  cases user with
  | none => exact hInv
  | some u =>
    simp only
    repeat' split
    all_goals
      first
        | exact hInv
        | exact
            { status_ok := hInv.status_ok
              scope_ok := hInv.scope_ok
              ids_nodup := hInv.ids_nodup
              ids_lt := hInv.ids_lt
              orders_nodup := hInv.orders_nodup
              orders_lt := hInv.orders_lt
              pending_ok := hInv.pending_ok
              resolved_ok := hInv.resolved_ok }

theorem _decide_step_upd_id (sid : Nat) (ns now c : String) (t : Step) :
    (_decide_step_upd sid ns now c t).id = t.id := by
  unfold _decide_step_upd
  split <;> rfl

theorem _decide_step_upd_order (sid : Nat) (ns now c : String) (t : Step) :
    (_decide_step_upd sid ns now c t).step_order = t.step_order := by
  unfold _decide_step_upd
  split <;> rfl

theorem _decide_step_upd_of_ne {sid : Nat} {ns now c : String} {t : Step}
    (h : ¬ t.id = sid) : _decide_step_upd sid ns now c t = t := by
  unfold _decide_step_upd
  exact if_neg h

theorem _decide_step_upd_self {sid : Nat} {ns now c : String} {t : Step}
    (h : t.id = sid) :
    _decide_step_upd sid ns now c t =
      { t with status := ns, decided_at := some now, comment := some c } := by
  unfold _decide_step_upd
  exact if_pos h

theorem decide_upd_map_id (steps : List Step) (sid : Nat) (ns now c : String) :
    ((steps.map (_decide_step_upd sid ns now c)).map (·.id))
      = steps.map (·.id) := by
  rw [List.map_map]
  exact List.map_congr_left (fun t _ => _decide_step_upd_id sid ns now c t)

theorem decide_upd_map_order (steps : List Step) (sid : Nat) (ns now c : String) :
    ((steps.map (_decide_step_upd sid ns now c)).map (·.step_order))
      = steps.map (·.step_order) := by
  rw [List.map_map]
  exact List.map_congr_left (fun t _ => _decide_step_upd_order sid ns now c t)

theorem inv_do_action {env : MailEnv} {emps : List Employee} {db : DB}
    {user role : Option String} {permissions : PermsCookie}
    {action comment now : String} (hInv : EngineInv db) :
    EngineInv (do_action env emps db user role permissions action comment now).1 := by
  unfold do_action
  cases user with
  | none => exact hInv
  | some u =>
    simp only
    split
    · exact hInv
    · split
      · exact hInv
      · split
        · exact hInv
        · rename_i s hfind
          split
          · exact hInv
          · split
            · exact hInv
            · rename_i ns hns
              have hmem : s ∈ db.steps := List.mem_of_find?_eq_some hfind
              have hpred := List.find?_some hfind
              rw [Bool.and_eq_true, beq_iff_eq, beq_iff_eq] at hpred
              obtain ⟨horder, hstat⟩ := hpred
              have hpend : db.approval.status = "pending" := by
                by_contra hnp
                have hcur := hInv.resolved_ok hnp
                rw [hcur] at horder
                omega
              obtain ⟨hc0, hclen, hzone⟩ := hInv.pending_ok hpend
              set c' := if _strip comment = "" then "已知會" else _strip comment with hc'
              have hnodup1 :
                  ((db.steps.map (_decide_step_upd s.id ns now c')).map (·.id)).Nodup := by
                rw [decide_upd_map_id]
                exact hInv.ids_nodup
              have hlt1 : ∀ t' ∈ db.steps.map (_decide_step_upd s.id ns now c'),
                  t'.id < db.next_step_id := by
                intro t' ht'
                rcases List.mem_map.mp ht' with ⟨t, ht, rfl⟩
                rw [_decide_step_upd_id]
                exact hInv.ids_lt t ht
              have hnodup2 :
                  ((db.steps.map (_decide_step_upd s.id ns now c')).map
                    (·.step_order)).Nodup := by
                rw [decide_upd_map_order]
                exact hInv.orders_nodup
              have hlt2 : ∀ t' ∈ db.steps.map (_decide_step_upd s.id ns now c'),
                  t'.step_order
                    < (db.steps.map (_decide_step_upd s.id ns now c')).length := by
                intro t' ht'
                rcases List.mem_map.mp ht' with ⟨t, ht, rfl⟩
                rw [_decide_step_upd_order, List.length_map]
                exact hInv.orders_lt t ht
              split
              · -- reject branch
                exact
                  { status_ok := show ("rejected" : String) ∈ statusVals by decide
                    scope_ok := hInv.scope_ok
                    ids_nodup := hnodup1
                    ids_lt := hlt1
                    orders_nodup := hnodup2
                    orders_lt := hlt2
                    pending_ok := fun hp =>
                      absurd (show ("rejected" : String) = "pending" from hp)
                        (by decide)
                    resolved_ok := fun _ => rfl }
              · -- approve / ack
                rename_i hrej
                have hns' : ns = "approved" := by
                  unfold _decide_new_status at hns
                  by_cases hap : action = "approve" ∨ action = "ack"
                  · rw [if_pos hap] at hns
                    injection hns with h'
                    exact h'.symm
                  · rw [if_neg hap, if_neg hrej] at hns
                    cases hns
                split
                · -- completion of the last step
                  split
                  all_goals
                    exact
                      { status_ok := show ("approved" : String) ∈ statusVals by decide
                        scope_ok := hInv.scope_ok
                        ids_nodup := hnodup1
                        ids_lt := hlt1
                        orders_nodup := hnodup2
                        orders_lt := hlt2
                        pending_ok := fun hp =>
                          absurd (show ("approved" : String) = "pending" from hp)
                            (by decide)
                        resolved_ok := fun _ => rfl }
                · -- advance to the next step
                  rename_i hnotlast
                  refine
                    { status_ok := hInv.status_ok
                      scope_ok := hInv.scope_ok
                      ids_nodup := hnodup1
                      ids_lt := hlt1
                      orders_nodup := hnodup2
                      orders_lt := hlt2
                      pending_ok := ?_
                      resolved_ok := fun hne => absurd hpend hne }
                  intro _
                  refine ⟨show (0 : Int) ≤ db.approval.current_step + 1 by omega,
                    ?_, ?_⟩
                  · show db.approval.current_step + 1
                      < ((db.steps.map (_decide_step_upd s.id ns now c')).length : Int)
                    rw [List.length_map]
                    omega
                  · intro t' ht'
                    have ht'' : t' ∈ db.steps.map (_decide_step_upd s.id ns now c') := ht'
                    rcases List.mem_map.mp ht'' with ⟨t, ht, rfl⟩
                    show StepZone (db.approval.current_step + 1)
                      (_decide_step_upd s.id ns now c' t)
                    by_cases hid : t.id = s.id
                    · have hts : t = s :=
                        List.inj_on_of_nodup_map hInv.ids_nodup ht hmem hid
                      subst hts
                      rw [_decide_step_upd_self hid]
                      refine ⟨fun _ => hns', ?_, ?_⟩
                      · intro he
                        exfalso
                        have he' : (t.step_order : Int) = db.approval.current_step + 1 := he
                        omega
                      · intro hgt
                        exfalso
                        have hgt' : db.approval.current_step + 1 < (t.step_order : Int) := hgt
                        omega
                    · rw [_decide_step_upd_of_ne hid]
                      obtain ⟨hz1, hz2, hz3⟩ := hzone t ht
                      refine ⟨?_, ?_, ?_⟩
                      · intro hlt'
                        have hlt'' : (t.step_order : Int)
                            < db.approval.current_step + 1 := hlt'
                        rcases lt_or_eq_of_le (Int.lt_add_one_iff.mp hlt'') with h' | h'
                        · exact hz1 h'
                        · exfalso
                          have hto : t.step_order = s.step_order := by omega
                          have hts := List.inj_on_of_nodup_map hInv.orders_nodup ht hmem hto
                          exact hid (by rw [hts])
                      · intro he
                        have he' : (t.step_order : Int)
                            = db.approval.current_step + 1 := he
                        exact hz3 (by omega)
                      · intro hgt
                        have hgt' : db.approval.current_step + 1
                            < (t.step_order : Int) := hgt
                        exact hz3 (by omega)

theorem inv_add_state {db : DB} (hInv : EngineInv db)
    (hpend : db.approval.status = "pending") {m : Nat}
    (hM : (db.steps.map (·.step_order)).max? = some m) {st : Step}
    (hstid : st.id = db.next_step_id) (hstord : st.step_order = m + 1)
    (hststat : st.status = "pending") {db' : DB}
    (hap : db'.approval = db.approval)
    (hsteps : db'.steps = _renumber_steps (db.steps ++ [st]))
    (hnext : db'.next_step_id = db.next_step_id + 1) :
    EngineInv db' := by
  obtain ⟨hc0, hclen, hzone⟩ := hInv.pending_ok hpend
  have hmax := (List.max?_eq_some_iff (fun a => le_refl a) (fun a b => max_choice a b)
    (fun a b c => Nat.max_le)).mp hM
  obtain ⟨hmmem, hmub⟩ := hmax
  have hmlt : m < db.steps.length := by
    rcases List.mem_map.mp hmmem with ⟨t, ht, hto⟩
    have := hInv.orders_lt t ht
    omega
  have hordlt' : ∀ x ∈ db.steps.map (·.step_order),
      x < (db.steps.map (·.step_order)).length := by
    intro x hx
    rcases List.mem_map.mp hx with ⟨t, ht, rfl⟩
    rw [List.length_map]
    exact hInv.orders_lt t ht
  have hcm : db.approval.current_step.toNat ∈ db.steps.map (·.step_order) :=
    dense_mem hInv.orders_nodup hordlt' (by rw [List.length_map]; omega)
  have hcurm : db.approval.current_step < (m : Int) + 1 := by
    have := hmub _ hcm
    omega
  have hAlen : (db.steps ++ [st]).length = db.steps.length + 1 := by simp
  have hAids : ((db.steps ++ [st]).map (·.id)).Nodup := by
    rw [List.map_append, List.nodup_append]
    refine ⟨hInv.ids_nodup, by simp, ?_⟩
    intro x hx hx'
    rcases List.mem_map.mp hx with ⟨t, ht, rfl⟩
    have h1 := hInv.ids_lt t ht
    have h2 : t.id = st.id := by simpa using hx'
    rw [hstid] at h2
    omega
  have hAords : ((db.steps ++ [st]).map (·.step_order)).Nodup := by
    rw [List.map_append, List.nodup_append]
    refine ⟨hInv.orders_nodup, by simp, ?_⟩
    intro x hx hx'
    rcases List.mem_map.mp hx with ⟨t, ht, rfl⟩
    have h1 := hmub _ (List.mem_map_of_mem _ ht)
    have h2 : t.step_order = st.step_order := by simpa using hx'
    rw [hstord] at h2
    omega
  have hAord_lt : ∀ t ∈ db.steps ++ [st],
      t.step_order < (db.steps ++ [st]).length := by
    intro t ht
    rcases List.mem_append.mp ht with ht | ht
    · have := hInv.orders_lt t ht
      rw [hAlen]
      omega
    · have ht' : t = st := by simpa using ht
      subst ht'
      rw [hAlen, hstord]
      omega
  have hre : _renumber_steps (db.steps ++ [st]) = db.steps ++ [st] :=
    renumber_eq_self_of_dense hAords hAord_lt
  refine
    { status_ok := by rw [hap]; exact hInv.status_ok
      scope_ok := by rw [hap]; exact hInv.scope_ok
      ids_nodup := by rw [hsteps, hre]; exact hAids
      ids_lt := ?_
      orders_nodup := by rw [hsteps, hre]; exact hAords
      orders_lt := by rw [hsteps, hre]; exact hAord_lt
      pending_ok := ?_
      resolved_ok := ?_ }
  · intro t ht
    rw [hsteps, hre] at ht
    rw [hnext]
    rcases List.mem_append.mp ht with ht | ht
    · have := hInv.ids_lt t ht
      omega
    · have ht' : t = st := by simpa using ht
      subst ht'
      rw [hstid]
      omega
  · intro hp
    rw [hap] at hp ⊢
    rw [hsteps, hre, hAlen]
    refine ⟨hc0, by push_cast; omega, ?_⟩
    intro t ht
    rcases List.mem_append.mp ht with ht | ht
    · exact hzone t ht
    · have ht' : t = st := by simpa using ht
      subst ht'
      refine ⟨?_, ?_, fun _ => hststat⟩
      · intro hlt'
        rw [hstord] at hlt'
        exfalso
        push_cast at hlt'
        omega
      · intro he
        rw [hstord] at he
        exfalso
        push_cast at he
        omega
  · intro hne
    rw [hap] at hne
    exact absurd hpend hne

theorem inv_add_step {emps : List Employee} {db : DB} {display_name : String}
    {user role : Option String} {permissions : PermsCookie} {now : String}
    (hInv : EngineInv db) :
    EngineInv (add_approver_step emps db display_name user role permissions now).1 := by
  unfold add_approver_step
  cases user with
  | none => exact hInv
  | some u =>
    simp only
    split
    · exact hInv
    · split
      · exact hInv
      · split
        · exact hInv
        · split
          · exact hInv
          · rename_i hnp
            have hpend : db.approval.status = "pending" := Decidable.not_not.mp hnp
            split
            · exact hInv
            · split
              · rename_i m hM
                exact inv_add_state hInv hpend hM rfl rfl rfl rfl rfl rfl
              · rename_i hM
                exfalso
                rw [List.max?_eq_none_iff] at hM
                have hnil : db.steps = [] := List.map_eq_nil_iff.mp hM
                obtain ⟨hc0, hclen, _⟩ := hInv.pending_ok hpend
                rw [hnil] at hclen
                simp at hclen
                omega

theorem countP_key_unique {l : List Step} (hids : (l.map (·.id)).Nodup)
    {s : Step} (hs : s ∈ l) (P : Step → Bool) :
    l.countP (fun t => (t.id == s.id) && P t) = if P s then 1 else 0 := by
  induction l with
  | nil => cases hs
  | cons y ys ih =>
    rw [List.map_cons, List.nodup_cons] at hids
    obtain ⟨hy, hys⟩ := hids
    rw [List.countP_cons]
    rcases List.mem_cons.mp hs with rfl | hs'
    · have hz : ys.countP (fun t => (t.id == s.id) && P t) = 0 := by
        rw [List.countP_eq_zero]
        intro t ht
        simp only [Bool.and_eq_true, beq_iff_eq, not_and]
        intro hts _
        exact hy (hts ▸ List.mem_map_of_mem _ ht)
      rw [hz]
      by_cases hP : P s = true
      · simp [hP]
      · simp [hP]
    · have hyne : ((y.id == s.id) && P y) = false := by
        have hyid : ¬ y.id = s.id := by
          intro hid
          exact hy (hid ▸ List.mem_map_of_mem (·.id) hs')
        simp [hyid]
      rw [hyne, ih hys hs']
      simp

theorem inv_delete_state {db : DB} (hInv : EngineInv db)
    (hpend : db.approval.status = "pending") {s : Step} {sid : Nat}
    (hmem : s ∈ db.steps) (hsid : s.id = sid)
    (hgt : db.approval.current_step < (s.step_order : Int))
    {db' : DB} (hap : db'.approval = db.approval)
    (hsteps : db'.steps = _renumber_steps (db.steps.filter (fun t => t.id ≠ sid)))
    (hnext : db'.next_step_id = db.next_step_id) :
    EngineInv db' := by
  subst hsid
  obtain ⟨hc0, hclen, hzone⟩ := hInv.pending_ok hpend
  have hglt : s.step_order < db.steps.length := hInv.orders_lt s hmem
  have hFsub : (db.steps.filter (fun t => t.id ≠ s.id)).Sublist db.steps :=
    List.filter_sublist _
  have hFids : ((db.steps.filter (fun t => t.id ≠ s.id)).map (·.id)).Nodup :=
    List.Nodup.sublist (hFsub.map _) hInv.ids_nodup
  have hFords : ((db.steps.filter (fun t => t.id ≠ s.id)).map (·.step_order)).Nodup :=
    List.Nodup.sublist (hFsub.map _) hInv.orders_nodup
  have hFmem : ∀ t ∈ db.steps.filter (fun t => t.id ≠ s.id),
      t ∈ db.steps ∧ t.id ≠ s.id := by
    intro t ht
    have := List.mem_filter.mp ht
    exact ⟨this.1, by simpa using this.2⟩
  have hlenF : (db.steps.filter (fun t : Step => t.id ≠ s.id)).length + 1
      = db.steps.length := by
    rw [← List.countP_eq_length_filter]
    have hone : db.steps.countP (fun t => t.id == s.id) = 1 := by
      have := countP_key_unique hInv.ids_nodup hmem (fun _ => true)
      simpa using this
    have hsplit := List.length_eq_countP_add_countP
      (fun t : Step => t.id == s.id) db.steps
    have hcongr : db.steps.countP (fun t : Step => decide ¬((t.id == s.id) = true))
        = db.steps.countP (fun t : Step => decide (t.id ≠ s.id)) := by
      apply List.countP_congr
      intro t _
      simp
    rw [hcongr] at hsplit
    omega
  have hrank : ∀ t ∈ db.steps.filter (fun t : Step => t.id ≠ s.id),
      lexRank (db.steps.filter (fun t : Step => t.id ≠ s.id)) t
        = if t.step_order < s.step_order then t.step_order
          else t.step_order - 1 := by
    intro t ht
    obtain ⟨htS, htid⟩ := hFmem t ht
    rw [lexRank_eq_countP_order hFords ht, List.countP_filter]
    have hall := countP_and_split
      (fun r : Step => decide (r.step_order < t.step_order))
      (fun r : Step => r.id == s.id) db.steps
    have hsw : db.steps.countP
          (fun r => decide (r.step_order < t.step_order) && (r.id == s.id))
        = db.steps.countP
          (fun r => (r.id == s.id) && decide (r.step_order < t.step_order)) := by
      apply List.countP_congr
      intro r _
      rw [Bool.and_comm]
    have hkey := countP_key_unique hInv.ids_nodup hmem
      (fun r => decide (r.step_order < t.step_order))
    have hdense := dense_countP_orders hInv.orders_nodup hInv.orders_lt
      (le_of_lt (hInv.orders_lt t htS))
    have hcongr2 : db.steps.countP
          (fun r => decide (r.step_order < t.step_order) && decide (r.id ≠ s.id))
        = db.steps.countP
          (fun r => decide (r.step_order < t.step_order) && !(r.id == s.id)) := by
      apply List.countP_congr
      intro r _
      simp
    rw [hcongr2]
    rw [hsw] at hall
    have hto : t.step_order ≠ s.step_order := fun h =>
      htid (congrArg (·.id) (List.inj_on_of_nodup_map hInv.orders_nodup htS hmem h))
    by_cases hlt' : t.step_order < s.step_order
    · have hPs : ¬ (decide (s.step_order < t.step_order) = true) := by
        simp
        omega
      rw [if_neg hPs] at hkey
      rw [if_pos hlt']
      omega
    · have hPs : decide (s.step_order < t.step_order) = true := by
        simp
        omega
      rw [if_pos hPs] at hkey
      rw [if_neg hlt']
      omega
  refine
    { status_ok := by rw [hap]; exact hInv.status_ok
      scope_ok := by rw [hap]; exact hInv.scope_ok
      ids_nodup := by rw [hsteps, renumber_map_id]; exact hFids
      ids_lt := ?_
      orders_nodup := by rw [hsteps]; exact renumber_orders_nodup hFids
      orders_lt := by rw [hsteps]; exact renumber_orders_lt
      pending_ok := ?_
      resolved_ok := by rw [hap]; exact fun hne => absurd hpend hne }
  · intro t ht
    rw [hsteps] at ht
    rcases mem_renumber.mp ht with ⟨t0, ht0, rfl⟩
    rw [hnext]
    have := hInv.ids_lt t0 (hFmem t0 ht0).1
    simpa using this
  · intro hp
    rw [hap]
    refine ⟨hc0, ?_, ?_⟩
    · rw [hsteps, renumber_length]
      omega
    · intro t' ht'
      rw [hsteps] at ht'
      rcases mem_renumber.mp ht' with ⟨t0, ht0, rfl⟩
      obtain ⟨ht0S, ht0id⟩ := hFmem t0 ht0
      obtain ⟨hz1, hz2, hz3⟩ := hzone t0 ht0S
      have hr := hrank t0 ht0
      have hto : t0.step_order ≠ s.step_order := fun h =>
        ht0id (congrArg (·.id) (List.inj_on_of_nodup_map hInv.orders_nodup ht0S hmem h))
      refine ⟨?_, ?_, ?_⟩
      · intro h'
        show t0.status = "approved"
        have h'' : ((lexRank (db.steps.filter (fun t : Step => t.id ≠ s.id)) t0 : Nat) : Int)
            < db.approval.current_step := h'
        rw [hr] at h''
        by_cases hlt' : t0.step_order < s.step_order
        · rw [if_pos hlt'] at h''
          exact hz1 h''
        · rw [if_neg hlt'] at h''
          exfalso
          omega
      · intro h'
        show t0.status = "pending"
        have h'' : ((lexRank (db.steps.filter (fun t : Step => t.id ≠ s.id)) t0 : Nat) : Int)
            = db.approval.current_step := h'
        rw [hr] at h''
        by_cases hlt' : t0.step_order < s.step_order
        · rw [if_pos hlt'] at h''
          exact hz2 h''
        · rw [if_neg hlt'] at h''
          exfalso
          omega
      · intro h'
        show t0.status = "pending"
        have h'' : db.approval.current_step
            < ((lexRank (db.steps.filter (fun t : Step => t.id ≠ s.id)) t0 : Nat) : Int) := h'
        rw [hr] at h''
        by_cases hlt' : t0.step_order < s.step_order
        · rw [if_pos hlt'] at h''
          exact hz3 h''
        · rw [if_neg hlt'] at h''
          exact hz3 (by omega)

theorem inv_delete_step {db : DB} {step_id : Nat} {user role : Option String}
    {permissions : PermsCookie} {now : String} (hInv : EngineInv db) :
    EngineInv (delete_approver_step db step_id user role permissions now).1 := by
  unfold delete_approver_step
  cases user with
  | none => exact hInv
  | some u =>
    simp only
    split
    · exact hInv
    · split
      · exact hInv
      · split
        · exact hInv
        · rename_i hnp
          have hpend : db.approval.status = "pending" := Decidable.not_not.mp hnp
          split
          · exact hInv
          · rename_i s hfind
            split
            · exact hInv
            · rename_i hguard
              have hmem : s ∈ db.steps := List.mem_of_find?_eq_some hfind
              have hsid : s.id = step_id := by
                have := List.find?_some hfind
                exact beq_iff_eq.mp this
              rcases not_or.mp hguard with ⟨_, h2⟩
              have hgt : db.approval.current_step < (s.step_order : Int) :=
                lt_of_not_le h2
              exact inv_delete_state hInv hpend hmem hsid hgt rfl rfl rfl

theorem perm_of_sortedInts_eq {a b : List Int} (h : sortedInts a = sortedInts b) :
    a.Perm b := by
  have ha := sortByLe_perm (fun x y => decide (x ≤ y)) a
  have hb := sortByLe_perm (fun x y => decide (x ≤ y)) b
  unfold sortedInts at h
  exact (ha.symm.trans (h ▸ hb))

theorem shift_comp_eq {sid : Int} {rest : List Int} (hsid : sid ∉ rest) (t : Step) :
    (fun u : Step => if (u.id : Int) ∈ rest then
        { u with step_order := u.step_order + SHIFT } else u)
      ((fun u : Step => if (u.id : Int) = sid then
        { u with step_order := u.step_order + SHIFT } else u) t)
    = if (t.id : Int) ∈ sid :: rest then
        { t with step_order := t.step_order + SHIFT } else t := by
  dsimp only
  by_cases hid : (t.id : Int) = sid
  · rw [if_pos hid]
    dsimp only
    rw [if_neg (by rw [hid]; exact hsid),
      if_pos (by rw [hid]; exact List.mem_cons_self _ _)]
  · rw [if_neg hid]
    by_cases hm : (t.id : Int) ∈ rest
    · rw [if_pos hm, if_pos (List.mem_cons_of_mem _ hm)]
    · rw [if_neg hm, if_neg (by
        intro hc
        rcases List.mem_cons.mp hc with hc | hc
        · exact hid hc
        · exact hm hc)]

theorem shiftSteps_char : ∀ {steps out : List Step} {ids : List Int},
    ids.Nodup → shiftSteps steps ids = some out →
    out = steps.map (fun t => if (t.id : Int) ∈ ids then
      { t with step_order := t.step_order + SHIFT } else t) := by
  intro steps out ids
  induction ids generalizing steps out with
  | nil =>
    intro _ h
    injection h with h
    subst h
    have hmap : ∀ t ∈ steps, (if (t.id : Int) ∈ ([] : List Int) then
        ({ t with step_order := t.step_order + SHIFT } : Step) else t) = t := by
      intro t _
      simp
    rw [List.map_congr_left hmap, List.map_id']
  | cons sid rest ih =>
    intro hnd h
    rw [List.nodup_cons] at hnd
    obtain ⟨hsid, hrest⟩ := hnd
    unfold shiftSteps at h
    unfold shiftOneChecked at h
    rcases hfind : steps.find? (fun r => (r.id : Int) == sid) with _ | r
    · rw [hfind] at h
      simp only at h
      have hout := ih hrest h
      rw [hout]
      apply List.map_congr_left
      intro t ht
      have hne : ¬ ((t.id : Int) = sid) := by
        have := List.find?_eq_none.mp hfind t ht
        simpa using this
      by_cases hm : (t.id : Int) ∈ rest
      · rw [if_pos hm, if_pos (List.mem_cons_of_mem _ hm)]
      · rw [if_neg hm, if_neg (by
          intro hc
          rcases List.mem_cons.mp hc with hc | hc
          · exact hne hc
          · exact hm hc)]
    · rw [hfind] at h
      simp only at h
      split at h
      · exact absurd h (by simp)
      · rename_i st1 heq
        split at heq
        · exact absurd heq (by simp)
        · injection heq with heq
          subst heq
          have hout := ih hrest h
          rw [hout, List.map_map]
          apply List.map_congr_left
          intro t _
          exact shift_comp_eq hsid t

theorem assign_comp_eq {sid : Int} {rest : List Int} (hsid : sid ∉ rest)
    (next : Nat) (t : Step) :
    (fun u : Step => if (u.id : Int) ∈ rest then
        { u with step_order := (next + 1) + posOf (u.id : Int) rest } else u)
      ((fun u : Step => if (u.id : Int) = sid then
        { u with step_order := next } else u) t)
    = if (t.id : Int) ∈ sid :: rest then
        { t with step_order := next + posOf (t.id : Int) (sid :: rest) } else t := by
  dsimp only
  by_cases hid : (t.id : Int) = sid
  · rw [if_pos hid]
    dsimp only
    rw [if_neg (by rw [hid]; exact hsid),
      if_pos (by rw [hid]; exact List.mem_cons_self _ _)]
    have hp : posOf (t.id : Int) (sid :: rest) = 0 := by
      show (if sid = (t.id : Int) then 0 else posOf (t.id : Int) rest + 1) = 0
      rw [if_pos hid.symm]
    rw [hp, Nat.add_zero]
  · rw [if_neg hid]
    by_cases hm : (t.id : Int) ∈ rest
    · rw [if_pos hm, if_pos (List.mem_cons_of_mem _ hm)]
      have hp : posOf (t.id : Int) (sid :: rest) = posOf (t.id : Int) rest + 1 := by
        show (if sid = (t.id : Int) then 0 else posOf (t.id : Int) rest + 1) = _
        rw [if_neg (fun hc => hid hc.symm)]
      rw [hp]
      have harith : (next + 1) + posOf (t.id : Int) rest
          = next + (posOf (t.id : Int) rest + 1) := by omega
      rw [harith]
    · rw [if_neg hm, if_neg (by
        intro hc
        rcases List.mem_cons.mp hc with hc | hc
        · exact hid hc
        · exact hm hc)]

theorem assignOrders_char : ∀ {steps out : List Step} {ids : List Int} {next : Nat},
    ids.Nodup → assignOrders steps ids next = some out →
    out = steps.map (fun t => if (t.id : Int) ∈ ids then
      { t with step_order := next + posOf (t.id : Int) ids } else t) := by
  intro steps out ids
  induction ids generalizing steps out with
  | nil =>
    intro next _ h
    injection h with h
    subst h
    have hmap : ∀ t ∈ steps, (if (t.id : Int) ∈ ([] : List Int) then
        ({ t with step_order := next + posOf (t.id : Int) [] } : Step) else t) = t := by
      intro t _
      simp
    rw [List.map_congr_left hmap, List.map_id']
  | cons sid rest ih =>
    intro next hnd h
    rw [List.nodup_cons] at hnd
    obtain ⟨hsid, hrest⟩ := hnd
    unfold assignOrders at h
    unfold setOrderChecked at h
    split at h
    · exact absurd h (by simp)
    · rename_i st1 heq
      split at heq
      · exact absurd heq (by simp)
      · injection heq with heq
        subst heq
        have hout := ih hrest h
        rw [hout, List.map_map]
        apply List.map_congr_left
        intro t _
        exact assign_comp_eq hsid next t

theorem inv_reorder_state {db : DB} (hInv : EngineInv db)
    (hpend : db.approval.status = "pending")
    {allowed new_ids : List Int}
    (hallow_mem : ∀ x, x ∈ allowed ↔ ∃ t ∈ db.steps, (t.id : Int) = x ∧
        t.status = "pending" ∧ db.approval.current_step < (t.step_order : Int))
    (hallow_nodup : allowed.Nodup)
    (hallow_len : allowed.length + (db.approval.current_step + 1).toNat
        = db.steps.length)
    (hsorted : sortedInts new_ids = sortedInts allowed)
    {shifted assigned : List Step}
    (hsh : shiftSteps db.steps allowed = some shifted)
    (has : assignOrders shifted new_ids (db.approval.current_step + 1).toNat
        = some assigned)
    {db' : DB} (hap : db'.approval = db.approval)
    (hsteps : db'.steps = _renumber_steps assigned)
    (hnext : db'.next_step_id = db.next_step_id) :
    EngineInv db' := by
  obtain ⟨hc0, hclen, hzone⟩ := hInv.pending_ok hpend
  have hperm : new_ids.Perm allowed := perm_of_sortedInts_eq hsorted
  have hnew_nodup : new_ids.Nodup := hperm.nodup_iff.mpr hallow_nodup
  have hnew_mem : ∀ x : Int, x ∈ new_ids ↔ x ∈ allowed := fun x => hperm.mem_iff
  have hnew_len : new_ids.length = allowed.length := hperm.length_eq
  have hsh' := shiftSteps_char hallow_nodup hsh
  have has' := assignOrders_char hnew_nodup has
  rw [hsh', List.map_map] at has'
  have hcomp : ∀ t ∈ db.steps,
      ((fun u : Step => if (u.id : Int) ∈ new_ids then
          { u with step_order := (db.approval.current_step + 1).toNat
              + posOf (u.id : Int) new_ids } else u) ∘
       (fun u : Step => if (u.id : Int) ∈ allowed then
          { u with step_order := u.step_order + SHIFT } else u)) t
      = if (t.id : Int) ∈ new_ids then
          { t with step_order := (db.approval.current_step + 1).toNat
              + posOf (t.id : Int) new_ids } else t := by
    intro t _
    dsimp only [Function.comp]
    by_cases hm : (t.id : Int) ∈ allowed
    · rw [if_pos hm]
      dsimp only
      rw [if_pos ((hnew_mem _).mpr hm), if_pos ((hnew_mem _).mpr hm)]
    · simp only [if_neg hm]
  rw [List.map_congr_left hcomp] at has'
  have hFFid : ∀ t : Step, (if (t.id : Int) ∈ new_ids then
      ({ t with step_order := (db.approval.current_step + 1).toNat
          + posOf (t.id : Int) new_ids } : Step) else t).id = t.id := by
    intro t
    split <;> rfl
  have hids_map : assigned.map (·.id) = db.steps.map (·.id) := by
    rw [has', List.map_map]
    exact List.map_congr_left (fun t _ => hFFid t)
  have hin : ∀ t ∈ db.steps, ((t.id : Int) ∈ new_ids ↔
      db.approval.current_step < (t.step_order : Int)) := by
    intro t ht
    rw [hnew_mem]
    constructor
    · intro hx
      rcases (hallow_mem _).mp hx with ⟨t', ht', hid, _, hgt⟩
      have hid' : t'.id = t.id := by exact_mod_cast hid
      have hts : t' = t := List.inj_on_of_nodup_map hInv.ids_nodup ht' ht hid'
      rw [← hts]
      exact hgt
    · intro hgt
      exact (hallow_mem _).mpr ⟨t, ht, rfl, (hzone t ht).2.2 hgt, hgt⟩
  have hlen : assigned.length = db.steps.length := by
    rw [has', List.length_map]
  have hpair : db.steps.Pairwise
      (fun a b => a.id ≠ b.id ∧ a.step_order ≠ b.step_order) :=
    (List.pairwise_map.mp hInv.ids_nodup).and
      (List.pairwise_map.mp hInv.orders_nodup)
  have hords_nodup : (assigned.map (·.step_order)).Nodup := by
    rw [has', List.map_map]
    apply List.pairwise_map.mpr
    apply hpair.imp_of_mem
    intro a b ha hb hab
    obtain ⟨habid, habord⟩ := hab
    simp only [Function.comp]
    by_cases hma : (a.id : Int) ∈ new_ids <;>
      by_cases hmb : (b.id : Int) ∈ new_ids
    · rw [if_pos hma, if_pos hmb]
      dsimp only
      intro heq
      have hpe : posOf (a.id : Int) new_ids = posOf (b.id : Int) new_ids := by
        omega
      have := posOf_inj hma hmb hpe
      exact habid (by exact_mod_cast this)
    · rw [if_pos hma, if_neg hmb]
      dsimp only
      have hble : ¬ db.approval.current_step < (b.step_order : Int) :=
        fun hc => hmb ((hin b hb).mpr hc)
      intro heq
      omega
    · rw [if_neg hma, if_pos hmb]
      dsimp only
      have hale : ¬ db.approval.current_step < (a.step_order : Int) :=
        fun hc => hma ((hin a ha).mpr hc)
      intro heq
      omega
    · rw [if_neg hma, if_neg hmb]
      exact habord
  have hords_lt : ∀ t' ∈ assigned, t'.step_order < assigned.length := by
    rw [has', List.length_map]
    intro t' ht'
    rcases List.mem_map.mp ht' with ⟨t, ht, rfl⟩
    by_cases hm : (t.id : Int) ∈ new_ids
    · rw [if_pos hm]
      have hpos := posOf_lt_length hm
      rw [hnew_len] at hpos
      show (db.approval.current_step + 1).toNat + posOf (t.id : Int) new_ids
        < db.steps.length
      omega
    · rw [if_neg hm]
      have hle : ¬ db.approval.current_step < (t.step_order : Int) :=
        fun hc => hm ((hin t ht).mpr hc)
      have := hInv.orders_lt t ht
      omega
  have hzone' : ∀ t' ∈ assigned, StepZone db.approval.current_step t' := by
    rw [has']
    intro t' ht'
    rcases List.mem_map.mp ht' with ⟨t, ht, rfl⟩
    by_cases hm : (t.id : Int) ∈ new_ids
    · rw [if_pos hm]
      have hgt := (hin t ht).mp hm
      have hpendt := (hzone t ht).2.2 hgt
      refine ⟨?_, ?_, fun _ => hpendt⟩
      · intro hlt'
        exfalso
        have hlt'' : (((db.approval.current_step + 1).toNat
            + posOf (t.id : Int) new_ids : Nat) : Int)
            < db.approval.current_step := hlt'
        omega
      · intro he
        exfalso
        have he' : (((db.approval.current_step + 1).toNat
            + posOf (t.id : Int) new_ids : Nat) : Int)
            = db.approval.current_step := he
        omega
    · rw [if_neg hm]
      exact hzone t ht
  have hre : _renumber_steps assigned = assigned :=
    renumber_eq_self_of_dense hords_nodup hords_lt
  refine
    { status_ok := by rw [hap]; exact hInv.status_ok
      scope_ok := by rw [hap]; exact hInv.scope_ok
      ids_nodup := by rw [hsteps, hre, hids_map]; exact hInv.ids_nodup
      ids_lt := ?_
      orders_nodup := by rw [hsteps, hre]; exact hords_nodup
      orders_lt := by rw [hsteps, hre]; exact hords_lt
      pending_ok := ?_
      resolved_ok := by rw [hap]; exact fun hne => absurd hpend hne }
  · intro t ht
    rw [hsteps, hre] at ht
    rw [hnext]
    have hmm : t.id ∈ assigned.map (·.id) := List.mem_map_of_mem _ ht
    rw [hids_map] at hmm
    rcases List.mem_map.mp hmm with ⟨t0, ht0, hid⟩
    rw [← hid]
    exact hInv.ids_lt t0 ht0
  · intro _
    rw [hap, hsteps, hre]
    exact ⟨hc0, by rw [hlen]; exact hclen, hzone'⟩

theorem inv_reorder {db : DB} {body : Option (List Int)}
    {user role : Option String} {permissions : PermsCookie} {now : String}
    (hInv : EngineInv db) :
    EngineInv (reorder_pending_steps db body user role permissions now).1 := by
  unfold reorder_pending_steps
  cases user with
  | none => exact hInv
  | some u =>
    simp only
    split
    · exact hInv
    · split
      · exact hInv
      · cases body with
        | none => exact hInv
        | some new_order_ids =>
          simp only
          split
          · exact hInv
          · rename_i hnp
            have hpend : db.approval.status = "pending" := Decidable.not_not.mp hnp
            obtain ⟨hc0, hclen, hzone⟩ := hInv.pending_ok hpend
            split
            · exact hInv
            · rename_i hsortne
              have hsorted : sortedInts new_order_ids
                  = sortedInts ((sortByLe (fun s t => decide (s.step_order ≤ t.step_order))
                      (db.steps.filter (fun t => t.status == "pending" &&
                        decide (db.approval.current_step < (t.step_order : Int))))).map
                      (fun t => (t.id : Int))) := Decidable.not_not.mp hsortne
              have hfsub : ((db.steps.filter (fun t => t.status == "pending" &&
                    decide (db.approval.current_step < (t.step_order : Int)))).map
                    (·.id)).Nodup :=
                List.Nodup.sublist ((List.filter_sublist _).map _) hInv.ids_nodup
              have hsortperm := sortByLe_perm
                (fun s t : Step => decide (s.step_order ≤ t.step_order))
                (db.steps.filter (fun t => t.status == "pending" &&
                  decide (db.approval.current_step < (t.step_order : Int))))
              have hsids : ((sortByLe (fun s t : Step => decide (s.step_order ≤ t.step_order))
                  (db.steps.filter (fun t => t.status == "pending" &&
                    decide (db.approval.current_step < (t.step_order : Int))))).map
                  (·.id)).Nodup := ((hsortperm.map _).nodup_iff).mpr hfsub
              have hallow_nodup : ((sortByLe (fun s t : Step => decide (s.step_order ≤ t.step_order))
                  (db.steps.filter (fun t => t.status == "pending" &&
                    decide (db.approval.current_step < (t.step_order : Int))))).map
                  (fun t => (t.id : Int))).Nodup := by
                have hmm : ((sortByLe (fun s t : Step => decide (s.step_order ≤ t.step_order))
                    (db.steps.filter (fun t => t.status == "pending" &&
                      decide (db.approval.current_step < (t.step_order : Int))))).map
                    (fun t => (t.id : Int)))
                    = (((sortByLe (fun s t : Step => decide (s.step_order ≤ t.step_order))
                      (db.steps.filter (fun t => t.status == "pending" &&
                        decide (db.approval.current_step < (t.step_order : Int))))).map
                      (·.id)).map (fun n : Nat => (n : Int))) := by
                  rw [List.map_map]
                  rfl
                rw [hmm]
                exact (List.nodup_map_iff (fun a b h => by exact_mod_cast h)).mpr hsids
              have hallow_mem : ∀ x, x ∈ ((sortByLe (fun s t : Step => decide (s.step_order ≤ t.step_order))
                  (db.steps.filter (fun t => t.status == "pending" &&
                    decide (db.approval.current_step < (t.step_order : Int))))).map
                  (fun t => (t.id : Int)))
                  ↔ ∃ t ∈ db.steps, (t.id : Int) = x ∧ t.status = "pending" ∧
                      db.approval.current_step < (t.step_order : Int) := by
                intro x
                constructor
                · intro hx
                  rcases List.mem_map.mp hx with ⟨t, ht, rfl⟩
                  rw [mem_sortByLe] at ht
                  obtain ⟨ht1, ht2⟩ := List.mem_filter.mp ht
                  rw [Bool.and_eq_true, beq_iff_eq, decide_eq_true_eq] at ht2
                  exact ⟨t, ht1, rfl, ht2.1, ht2.2⟩
                · rintro ⟨t, ht, rfl, hst, hgt⟩
                  apply List.mem_map_of_mem
                  rw [mem_sortByLe, List.mem_filter]
                  refine ⟨ht, ?_⟩
                  rw [Bool.and_eq_true, beq_iff_eq, decide_eq_true_eq]
                  exact ⟨hst, hgt⟩
              have hnextle : (db.approval.current_step + 1).toNat ≤ db.steps.length := by
                omega
              have hallow_len : ((sortByLe (fun s t : Step => decide (s.step_order ≤ t.step_order))
                  (db.steps.filter (fun t => t.status == "pending" &&
                    decide (db.approval.current_step < (t.step_order : Int))))).map
                  (fun t => (t.id : Int))).length
                  + (db.approval.current_step + 1).toNat = db.steps.length := by
                rw [List.length_map, hsortperm.length_eq,
                  ← List.countP_eq_length_filter]
                have hsplit := List.length_eq_countP_add_countP
                  (fun t : Step => t.status == "pending" &&
                    decide (db.approval.current_step < (t.step_order : Int))) db.steps
                have hcong : db.steps.countP (fun t =>
                      decide ¬((fun t : Step => t.status == "pending" &&
                        decide (db.approval.current_step < (t.step_order : Int))) t = true))
                    = db.steps.countP (fun t =>
                      decide (t.step_order < (db.approval.current_step + 1).toNat)) := by
                  apply List.countP_congr
                  intro t ht
                  simp only [decide_eq_true_eq, Bool.and_eq_true, beq_iff_eq, not_and]
                  constructor
                  · intro hnp
                    by_contra hge
                    have hgt : db.approval.current_step < (t.step_order : Int) := by
                      omega
                    exact (hnp ((hzone t ht).2.2 hgt)) hgt
                  · intro hlt hst
                    omega
                rw [hcong, dense_countP_orders hInv.orders_nodup hInv.orders_lt hnextle]
                  at hsplit
                omega
              have hconflict : EngineInv { db with steps := _renumber_steps db.steps } := by
                rw [renumber_eq_self_of_dense hInv.orders_nodup hInv.orders_lt]
                exact hInv
              split
              · exact hconflict
              · rename_i shifted hsh
                split
                · exact hconflict
                · rename_i assigned has
                  exact inv_reorder_state hInv hpend hallow_mem hallow_nodup
                    hallow_len hsorted hsh has rfl rfl rfl

/-- Every reachable engine state satisfies the invariant. -/
theorem inv_of_reach {db : DB} (h : Reach db) : EngineInv db := by
  induction h with
  | create env emps form user role permissions now db r hc => exact inv_create hc
  | decide db env emps user role permissions action comment now hr ih =>
    exact inv_do_action ih
  | add_step db emps display_name user role permissions now hr ih =>
    exact inv_add_step ih
  | delete_step db step_id user role permissions now hr ih =>
    exact inv_delete_step ih
  | reorder db body user role permissions now hr ih => exact inv_reorder ih
  | edit db form user role permissions now hr ih => exact inv_edit ih
  | add_files db file_names user role permissions now hr ih =>
    exact inv_add_files ih
  | delete_file db file_id user role permissions now hr ih =>
    exact inv_delete_file ih

/-! ## The claims -/

/-- A small employee directory used in concrete instantiations. -/
def sample_emps : List Employee :=
  [{ english_name := "Alice", name := "艾莉絲", email := "alice@ex.com" }]

/-- A concrete creation form with a two-approver chain. -/
def sample_form : CreateForm :=
  { subject := "s", description := "d", requester := "req", requester_dept := "",
    view_scope := "org", approver_chain := some ["Alice", "Bob"],
    confidential := "", publish_memo := "0" }

/-- A mail environment with SMTP unconfigured (sends are skipped). -/
def sample_env : MailEnv := { smtp_configured := false, transport_raises := false }

/-- The state produced by a concrete successful `create_approval`. -/
def sample_db : DB :=
  ((create_approval sample_env sample_emps sample_form (some "req") (some "admin")
    PermsCookie.absent "t0").1).getD default

theorem sample_db_reach : Reach sample_db :=
  Reach.create sample_env sample_emps sample_form (some "req") (some "admin")
    PermsCookie.absent "t0" sample_db
    ((create_approval sample_env sample_emps sample_form (some "req") (some "admin")
      PermsCookie.absent "t0").2) rfl

/-- C1: in every reachable state, `current_step` is a valid zero-based index
into the live step list when the request is pending, and it equals `-1`
exactly when the status is not `pending`; every operation of the engine
preserves this (reachability is closure under all the mutating handlers). -/
theorem current_step_pointer_invariant {db : DB} (h : Reach db) :
    (db.approval.status = "pending" →
      0 ≤ db.approval.current_step ∧
        db.approval.current_step < (db.steps.length : Int)) ∧
    (db.approval.current_step = -1 ↔ db.approval.status ≠ "pending") := by
  have hInv := inv_of_reach h
  refine ⟨fun hp => ?_, ⟨fun hm1 hp => ?_, hInv.resolved_ok⟩⟩
  · obtain ⟨h1, h2, _⟩ := hInv.pending_ok hp
    exact ⟨h1, h2⟩
  · obtain ⟨h1, _, _⟩ := hInv.pending_ok hp
    omega

theorem current_step_pointer_invariant_witness :
    (sample_db.approval.status = "pending" →
      0 ≤ sample_db.approval.current_step ∧
        sample_db.approval.current_step < (sample_db.steps.length : Int)) ∧
    (sample_db.approval.current_step = -1 ↔
      sample_db.approval.status ≠ "pending") :=
  current_step_pointer_invariant sample_db_reach

/-- C2: in every reachable state with a pending request, exactly one step
has `step_order` equal to `current_step`; that step is `pending`, and every
step with a smaller order is `approved`. -/
theorem single_active_step {db : DB} (h : Reach db)
    (hp : db.approval.status = "pending") :
    ∃ s ∈ db.steps, (s.step_order : Int) = db.approval.current_step ∧
      s.status = "pending" ∧
      (∀ t ∈ db.steps, (t.step_order : Int) = db.approval.current_step → t = s) ∧
      (∀ t ∈ db.steps, (t.step_order : Int) < db.approval.current_step →
        t.status = "approved") := by
  have hInv := inv_of_reach h
  obtain ⟨hc0, hclen, hzone⟩ := hInv.pending_ok hp
  have hordlt' : ∀ x ∈ db.steps.map (·.step_order),
      x < (db.steps.map (·.step_order)).length := by
    intro x hx
    rcases List.mem_map.mp hx with ⟨t, ht, rfl⟩
    rw [List.length_map]
    exact hInv.orders_lt t ht
  have hcm : db.approval.current_step.toNat ∈ db.steps.map (·.step_order) :=
    dense_mem hInv.orders_nodup hordlt' (by rw [List.length_map]; omega)
  rcases List.mem_map.mp hcm with ⟨s, hs, hso⟩
  have hso' : (s.step_order : Int) = db.approval.current_step := by omega
  refine ⟨s, hs, hso', (hzone s hs).2.1 hso', ?_, ?_⟩
  · intro t ht hto
    have hord : t.step_order = s.step_order := by omega
    exact List.inj_on_of_nodup_map hInv.orders_nodup ht hs hord
  · intro t ht hlt
    exact (hzone t ht).1 hlt

theorem single_active_step_witness :
    ∃ s ∈ sample_db.steps,
      (s.step_order : Int) = sample_db.approval.current_step ∧
      s.status = "pending" ∧
      (∀ t ∈ sample_db.steps,
        (t.step_order : Int) = sample_db.approval.current_step → t = s) ∧
      (∀ t ∈ sample_db.steps,
        (t.step_order : Int) < sample_db.approval.current_step →
          t.status = "approved") :=
  single_active_step sample_db_reach rfl

/-- A step chain with a historical duplicate ordering, as renumbering has to
heal. -/
def sample_steps : List Step :=
  [{ id := 1, step_order := 5, approver_name := "a", approver_email := none,
     status := "pending", decided_at := none, comment := none },
   { id := 2, step_order := 5, approver_name := "b", approver_email := none,
     status := "pending", decided_at := none, comment := none },
   { id := 3, step_order := 0, approver_name := "c", approver_email := none,
     status := "approved", decided_at := none, comment := none }]

/-- C5: `_renumber_steps` is idempotent — running it twice yields the same
rows (hence the same id-to-order mapping) as running it once — and on a
chain whose orders already form the dense sequence `0..n-1` it changes
nothing.  Ids are assumed distinct, as `approval_steps.id` is the primary
key. -/
theorem renumber_idempotent_and_dense_noop (steps : List Step)
    (hids : (steps.map (·.id)).Nodup) :
    _renumber_steps (_renumber_steps steps) = _renumber_steps steps ∧
    ((steps.map (·.step_order)).Nodup →
      (∀ s ∈ steps, s.step_order < steps.length) →
      _renumber_steps steps = steps) :=
  ⟨renumber_idem hids, fun h1 h2 => renumber_eq_self_of_dense h1 h2⟩

theorem renumber_idempotent_witness :
    _renumber_steps (_renumber_steps sample_steps) = _renumber_steps sample_steps :=
  (renumber_idempotent_and_dense_noop sample_steps (by decide)).1

theorem _normalize_scope_of_mem {v : String} (h : v ∈ scopeVals) :
    _normalize_scope (some v) = v := by
  have h' : v = "org" ∨ v = "restricted" ∨ v = "top_secret" := by
    simpa [scopeVals] using h
  rcases h' with rfl | rfl | rfl <;> decide

/-- C10: the stored `view_scope` is always one of `org`, `restricted`,
`top_secret`; any supplied scope that does not trim-and-lowercase to one of
those (including the empty string and a missing value) is silently stored as
`restricted` by both `create_approval` and `update_approval_details`, with
no error reported. -/
theorem view_scope_always_normalized :
    (∀ raw : Option String, _normalize_scope raw ∈ scopeVals) ∧
    (∀ s : String, _lower (_strip s) ∉ scopeVals →
      _normalize_scope (some s) = "restricted") ∧
    _normalize_scope none = "restricted" ∧
    (∀ env emps form user role permissions now db r,
      create_approval env emps form user role permissions now = (some db, r) →
      db.approval.view_scope = _normalize_scope (some form.view_scope)) ∧
    (∀ db form u role permissions now db',
      update_approval_details db form (some u) role permissions now
        = (db', Except.ok Resp.redirect_detail) →
      db'.approval.view_scope = _normalize_scope (some form.view_scope)) := by
  refine ⟨_normalize_scope_mem, ?_, by decide, ?_, ?_⟩
  · intro s hns
    unfold _normalize_scope
    simp only
    by_cases hse : s = ""
    · rw [if_pos hse]
      decide
    · rw [if_neg hse]
      rw [if_neg (by
        intro hmem
        apply hns
        rcases hmem with h | h | h <;> rw [h] <;> decide)]
  · intro env emps form user role permissions now db r hc
    unfold create_approval at hc
    cases user with
    | none => simp at hc
    | some u =>
      simp only at hc
      split at hc
      · simp at hc
      · split at hc
        · simp at hc
        · rw [Prod.mk.injEq] at hc
          obtain ⟨h1, _⟩ := hc
          injection h1 with h1
          subst h1
          rfl
  · intro db form u role permissions now db' he
    unfold update_approval_details at he
    simp only at he
    split at he
    · rw [Prod.mk.injEq] at he
      simp at he
    · split at he
      · rw [Prod.mk.injEq] at he
        simp at he
      · split at he
        · rw [Prod.mk.injEq] at he
          simp at he
        · split at he
          all_goals
            split at he
            case isTrue hnc =>
              rw [Prod.mk.injEq] at he
              obtain ⟨h1, _⟩ := he
              subst h1
              push_neg at hnc
              exact hnc.2.2.2.1
            case isFalse =>
              rw [Prod.mk.injEq] at he
              obtain ⟨h1, _⟩ := he
              subst h1
              rfl

theorem view_scope_always_normalized_witness :
    _normalize_scope (some " TOP_secret ") ∈ scopeVals ∧
    _normalize_scope (some "weird") = "restricted" :=
  ⟨view_scope_always_normalized.1 (some " TOP_secret "),
   view_scope_always_normalized.2.1 "weird" (by decide)⟩

/-- Mapping a mail outcome to a redirect never produces an `error403`
payload, whether the send succeeded or raised. -/
theorem except_map_ne_err {e : Except String Unit} {s : String} :
    Except.map (fun _ => Resp.redirect_detail) e ≠ Except.ok (Resp.error403 s) := by
  cases e <;> simp [Except.map]

/-- A single pending step whose approver display name is `Alice`. -/
def c3_step : Step :=
  { id := 1, step_order := 0, approver_name := "Alice",
    approver_email := some "alice@ex.com", status := "pending",
    decided_at := none, comment := none }

/-- The request row of the one-step pending state below. -/
def c3_approval : Approval :=
  { id := 1, subject := "s", description := "d", confidential := "",
    requester := "req", requester_dept := "", submitted_at := "t0",
    status := "pending", current_step := 0, view_scope := "org",
    publish_memo := 0 }

/-- A one-step pending request used to instantiate the decide claims. -/
def c3_db : DB :=
  { approval := c3_approval,
    steps := [c3_step], actions := [], files := [], memos := [],
    next_step_id := 2, next_action_id := 1, next_file_id := 1 }

/-- C3: once the module gate `can_use_approvals` passes, decide authorization
is exactly identity-key membership — a caller whose identity-key set contains
the active step's normalized approver name gets the step decided (the step
rows are updated and no 403 is returned), and a caller whose set does not is
answered `not_your_step` with the state unchanged. -/
theorem decide_authorization_identity_keys
    (env : MailEnv) (emps : List Employee) (db : DB) (u : String)
    (role : Option String) (permissions : PermsCookie)
    (action comment now : String) (s : Step) (ns : String)
    (hgate : can_use_approvals role permissions = true)
    (hcm : ¬ (¬ action = "ack" ∧ _strip comment = ""))
    (hfind : db.steps.find? (fun t =>
        ((t.step_order : Int) == db.approval.current_step) && t.status == "pending")
      = some s)
    (hns : _decide_new_status action = some ns) :
    (_normi s.approver_name ∈ user_identity_keys emps u →
      (do_action env emps db (some u) role permissions action comment now).1.steps
        = db.steps.map (_decide_step_upd s.id ns now
            (if _strip comment = "" then "已知會" else _strip comment)) ∧
      ∀ e, (do_action env emps db (some u) role permissions action comment now).2
        ≠ Except.ok (Resp.error403 e)) ∧
    (_normi s.approver_name ∉ user_identity_keys emps u →
      do_action env emps db (some u) role permissions action comment now
        = (db, Except.ok (Resp.error403 "not_your_step"))) := by
  unfold do_action
  simp only
  rw [if_neg (not_not_intro hgate), if_neg hcm, hfind]
  constructor
  · intro hmem
    dsimp only
    rw [if_neg (not_not_intro hmem), hns]
    dsimp only
    constructor
    · repeat' split
      all_goals rfl
    · intro e
      repeat' split
      all_goals
        first
          | (intro hcontra; exact except_map_ne_err hcontra)
          | (intro hcontra; exact @except_map_ne_err (send_mail_safe env []) e hcontra)
  · intro hmem
    dsimp only
    rw [if_pos hmem]

theorem decide_authorization_identity_keys_witness :
    (do_action sample_env sample_emps c3_db (some "alice") (some "admin")
        PermsCookie.absent "approve" "ok" "t1").1.steps
      = c3_db.steps.map (_decide_step_upd c3_step.id "approved" "t1"
          (if _strip "ok" = "" then "已知會" else _strip "ok")) ∧
    ∀ e, (do_action sample_env sample_emps c3_db (some "alice") (some "admin")
        PermsCookie.absent "approve" "ok" "t1").2
      ≠ Except.ok (Resp.error403 e) :=
  (decide_authorization_identity_keys sample_env sample_emps c3_db "alice"
      (some "admin") PermsCookie.absent "approve" "ok" "t1" c3_step "approved"
      (by decide) (by decide) (by decide) (by decide)).1 (by decide)

/-- C3 counterexample to the original wording: permission flags do matter.
The caller `alice` is exactly the active step's approver (her identity keys
contain the normalized approver name), yet with no role and no permissions
cookie the call is answered `permission_denied` before the identity check is
ever reached — she cannot decide the step. -/
theorem decide_authorization_gate_counterexample :
    _normi c3_step.approver_name ∈ user_identity_keys sample_emps "alice" ∧
    do_action sample_env sample_emps c3_db (some "alice") none PermsCookie.absent
        "approve" "ok" "t1"
      = (c3_db, Except.ok Resp.permission_denied) := by
  constructor
  · decide
  · rfl

/-- The ids eligible for reorder, exactly as `reorder_pending_steps` computes
them: the pending steps strictly after `current_step`, in `ORDER BY
step_order`. -/
def eligible_ids (db : DB) : List Int :=
  (sortByLe (fun s t => decide (s.step_order ≤ t.step_order))
    (db.steps.filter (fun t =>
      t.status == "pending"
        && decide (db.approval.current_step < (t.step_order : Int))))).map
    (fun t => (t.id : Int))

/-- C4: the reorder handler proceeds only when the supplied ids are, as a
set, exactly the pending steps strictly after `current_step`; any other
supplied set — one containing a decided step, the active step, or a stranger
id — is answered `invalid_ids` with the state untouched. -/
theorem reorder_requires_exact_pending_suffix
    (db : DB) (ids : List Int) (u : String) (role : Option String)
    (permissions : PermsCookie) (now : String)
    (hgate : can_use_approvals role permissions = true)
    (hreq : _is_requester_or_admin db u role = true)
    (hpend : db.approval.status = "pending") :
    (¬ ((∀ x ∈ ids, x ∈ eligible_ids db) ∧ (∀ x ∈ eligible_ids db, x ∈ ids)) →
      reorder_pending_steps db (some ids) (some u) role permissions now
        = (db, Except.ok (Resp.error400 "invalid_ids"))) ∧
    ((reorder_pending_steps db (some ids) (some u) role permissions now).2
        = Except.ok Resp.json_ok →
      (∀ x ∈ ids, x ∈ eligible_ids db) ∧ (∀ x ∈ eligible_ids db, x ∈ ids)) := by
  have hmem : sortedInts ids = sortedInts (eligible_ids db) →
      (∀ x ∈ ids, x ∈ eligible_ids db) ∧ (∀ x ∈ eligible_ids db, x ∈ ids) := by
    intro hs
    have hp := perm_of_sortedInts_eq hs
    exact ⟨fun x hx => hp.mem_iff.mp hx, fun x hx => hp.mem_iff.mpr hx⟩
  by_cases hs : sortedInts ids = sortedInts (eligible_ids db)
  · exact ⟨fun hne => absurd (hmem hs) hne, fun _ => hmem hs⟩
  · have hr : reorder_pending_steps db (some ids) (some u) role permissions now
        = (db, Except.ok (Resp.error400 "invalid_ids")) := by
      unfold reorder_pending_steps
      simp only
      rw [if_neg (not_not_intro hgate), if_neg (not_not_intro hreq),
        if_neg (not_not_intro hpend)]
      unfold eligible_ids at hs
      rw [if_pos hs]
    refine ⟨fun _ => hr, fun hjs => ?_⟩
    rw [hr] at hjs
    cases hjs

/-- The request row of the three-step state below: step 0 already approved,
current step 1. -/
def c4_approval : Approval :=
  { id := 1, subject := "s", description := "d", confidential := "",
    requester := "req", requester_dept := "", submitted_at := "t0",
    status := "pending", current_step := 1, view_scope := "org",
    publish_memo := 0 }

/-- A three-step chain: step 1 approved, step 2 active, step 3 pending. -/
def c4_db : DB :=
  { approval := c4_approval,
    steps :=
      [{ id := 1, step_order := 0, approver_name := "A", approver_email := none,
         status := "approved", decided_at := some "t0", comment := none },
       { id := 2, step_order := 1, approver_name := "B", approver_email := none,
         status := "pending", decided_at := none, comment := none },
       { id := 3, step_order := 2, approver_name := "C", approver_email := none,
         status := "pending", decided_at := none, comment := none }],
    actions := [], files := [], memos := [],
    next_step_id := 4, next_action_id := 1, next_file_id := 1 }

theorem reorder_requires_exact_pending_suffix_witness :
    reorder_pending_steps c4_db (some [2]) (some "req") (some "admin")
        PermsCookie.absent "t1"
      = (c4_db, Except.ok (Resp.error400 "invalid_ids")) :=
  (reorder_requires_exact_pending_suffix c4_db [2] "req" (some "admin")
      PermsCookie.absent "t1" (by decide) (by decide) (by decide)).1 (by decide)

/-- C9: when the last step of a pending request is decided with `approve` or
`ack` by its approver, completion emits exactly one memo if and only if
`publish_memo` is set, and its visibility is the normalized scope with
`top_secret` downgraded to `restricted` (`org` and `restricted` are kept). -/
theorem completion_memo_downgrade
    (env : MailEnv) (emps : List Employee) (db : DB) (u : String)
    (role : Option String) (permissions : PermsCookie)
    (action comment now : String) (s : Step) (ns : String)
    (hgate : can_use_approvals role permissions = true)
    (hcm : ¬ (¬ action = "ack" ∧ _strip comment = ""))
    (hfind : db.steps.find? (fun t =>
        ((t.step_order : Int) == db.approval.current_step) && t.status == "pending")
      = some s)
    (hmem : _normi s.approver_name ∈ user_identity_keys emps u)
    (hns : _decide_new_status action = some ns)
    (hrej : ¬ action = "reject")
    (hlast : (db.steps.length : Int) ≤ db.approval.current_step + 1) :
    (db.approval.publish_memo = 1 →
      (do_action env emps db (some u) role permissions action comment now).1.memos
        = db.memos ++
          [{ title := db.approval.subject, body := db.approval.description,
             visibility :=
               if _normalize_scope (some db.approval.view_scope) = "top_secret"
               then "restricted" else _normalize_scope (some db.approval.view_scope),
             created_at := now, author := db.approval.requester,
             source := "approvals", source_id := db.approval.id }]) ∧
    (¬ db.approval.publish_memo = 1 →
      (do_action env emps db (some u) role permissions action comment now).1.memos
        = db.memos) := by
  unfold do_action
  simp only
  rw [if_neg (not_not_intro hgate), if_neg hcm, hfind]
  dsimp only
  rw [if_neg (not_not_intro hmem), hns]
  dsimp only
  rw [if_neg hrej, if_pos hlast]
  constructor
  · intro hpm
    rw [if_pos hpm]
  · intro hpm
    rw [if_neg hpm]

/-- The request row of the completion state below: one step, top-secret
scope, publish flag set. -/
def c9_approval : Approval :=
  { id := 7, subject := "subj", description := "body", confidential := "",
    requester := "req", requester_dept := "", submitted_at := "t0",
    status := "pending", current_step := 0, view_scope := "top_secret",
    publish_memo := 1 }

/-- A one-step pending request about to complete. -/
def c9_db : DB :=
  { approval := c9_approval,
    steps := [c3_step], actions := [], files := [], memos := [],
    next_step_id := 2, next_action_id := 1, next_file_id := 1 }

theorem completion_memo_downgrade_witness :
    (do_action sample_env sample_emps c9_db (some "alice") (some "admin")
        PermsCookie.absent "approve" "ok" "t1").1.memos
      = c9_db.memos ++
        [{ title := c9_db.approval.subject, body := c9_db.approval.description,
           visibility :=
             if _normalize_scope (some c9_db.approval.view_scope) = "top_secret"
             then "restricted" else _normalize_scope (some c9_db.approval.view_scope),
           created_at := "t1", author := c9_db.approval.requester,
           source := "approvals", source_id := c9_db.approval.id }] :=
  (completion_memo_downgrade sample_env sample_emps c9_db "alice" (some "admin")
      PermsCookie.absent "approve" "ok" "t1" c3_step "approved"
      (by decide) (by decide) (by decide) (by decide) (by decide) (by decide)
      (by decide)).1 (by decide)

/-- C6 (amended): a unique-index violation while writing new step orders
rolls the transaction back, renumbers the chain once, and surfaces the
failure to the caller as the 409 `integrity_conflict` response immediately —
the reorder itself is never retried, and the failure is not dropped. -/
theorem reorder_integrity_conflict_no_retry
    (db : DB) (ids : List Int) (u : String) (role : Option String)
    (permissions : PermsCookie) (now : String)
    (hgate : can_use_approvals role permissions = true)
    (hreq : _is_requester_or_admin db u role = true)
    (hpend : db.approval.status = "pending")
    (hids : sortedInts ids = sortedInts (eligible_ids db))
    (hfail : shiftSteps db.steps (eligible_ids db) = none ∨
      ∃ shifted, shiftSteps db.steps (eligible_ids db) = some shifted ∧
        assignOrders shifted ids (db.approval.current_step + 1).toNat = none) :
    reorder_pending_steps db (some ids) (some u) role permissions now
      = ({ db with steps := _renumber_steps db.steps },
         Except.ok (Resp.error409 "integrity_conflict")) := by
  unfold eligible_ids at hids hfail
  unfold reorder_pending_steps
  simp only
  rw [if_neg (not_not_intro hgate), if_neg (not_not_intro hreq),
    if_neg (not_not_intro hpend), if_neg (not_not_intro hids)]
  rcases hfail with h | ⟨shifted, h1, h2⟩
  · rw [h]
  · rw [h1]
    dsimp only
    rw [h2]

/-- The request row of the collision state below. -/
def c6_approval : Approval :=
  { id := 1, subject := "s", description := "d", confidential := "",
    requester := "req", requester_dept := "", submitted_at := "t0",
    status := "pending", current_step := 0, view_scope := "org",
    publish_memo := 0 }

/-- A chain whose stray order `100001` collides with the shift band: shifting
step 2 to `1 + 100000` hits step 3's existing order. -/
def c6_db : DB :=
  { approval := c6_approval,
    steps :=
      [{ id := 1, step_order := 0, approver_name := "A", approver_email := none,
         status := "approved", decided_at := some "t0", comment := none },
       { id := 2, step_order := 1, approver_name := "B", approver_email := none,
         status := "pending", decided_at := none, comment := none },
       { id := 3, step_order := 100001, approver_name := "C",
         approver_email := none, status := "pending", decided_at := none,
         comment := none }],
    actions := [], files := [], memos := [],
    next_step_id := 4, next_action_id := 1, next_file_id := 1 }

theorem reorder_integrity_conflict_no_retry_witness :
    reorder_pending_steps c6_db (some [2, 3]) (some "req") (some "admin")
        PermsCookie.absent "t1"
      = ({ c6_db with steps := _renumber_steps c6_db.steps },
         Except.ok (Resp.error409 "integrity_conflict")) :=
  reorder_integrity_conflict_no_retry c6_db [2, 3] "req" (some "admin")
    PermsCookie.absent "t1" (by decide) (by decide) (by decide) (by decide)
    (Or.inl (by decide))

/-- C6 counterexample to the original wording: no renumber-and-retry happens.
The first call hits the unique-index collision and answers 409 even though
the very same request, reissued against the renumbered state the handler
itself left behind, succeeds — which is what one automatic retry would have
returned to the caller. -/
theorem reorder_no_retry_counterexample :
    (reorder_pending_steps c6_db (some [2, 3]) (some "req") (some "admin")
        PermsCookie.absent "t1").2
      = Except.ok (Resp.error409 "integrity_conflict") ∧
    (reorder_pending_steps
        (reorder_pending_steps c6_db (some [2, 3]) (some "req") (some "admin")
          PermsCookie.absent "t1").1
        (some [2, 3]) (some "req") (some "admin") PermsCookie.absent "t2").2
      = Except.ok Resp.json_ok := by
  exact ⟨rfl, rfl⟩

/-- A mail environment whose transport raises on every attempted send. -/
def c7_env_fail : MailEnv := { smtp_configured := true, transport_raises := true }

/-- A mail environment whose transport delivers normally. -/
def c7_env_ok : MailEnv := { smtp_configured := true, transport_raises := false }

/-- The request row of the notification state below: the requester `Alice`
resolves to a real mailbox, so the decision notification is actually sent. -/
def c7_approval : Approval :=
  { id := 1, subject := "s", description := "d", confidential := "",
    requester := "Alice", requester_dept := "", submitted_at := "t0",
    status := "pending", current_step := 0, view_scope := "org",
    publish_memo := 0 }

/-- A one-step pending request whose requester has a resolvable mailbox. -/
def c7_db : DB :=
  { approval := c7_approval,
    steps := [c3_step], actions := [], files := [], memos := [],
    next_step_id := 2, next_action_id := 1, next_file_id := 1 }

/-- C7 (code bug): `send_mail_safe` has no exception handling, so a transport
failure propagates out of `do_action`.  On the same reject decision the
failing transport turns the caller's response into an exception instead of
the success redirect, even though the decision itself was already committed:
the resulting state is identical to the successful-send state and the
request is `rejected` in both. -/
theorem mail_failure_propagates :
    (do_action c7_env_fail sample_emps c7_db (some "alice") (some "admin")
        PermsCookie.absent "reject" "no" "t1").2
      = Except.error "SMTPException" ∧
    (do_action c7_env_ok sample_emps c7_db (some "alice") (some "admin")
        PermsCookie.absent "reject" "no" "t1").2
      = Except.ok Resp.redirect_detail ∧
    (do_action c7_env_fail sample_emps c7_db (some "alice") (some "admin")
        PermsCookie.absent "reject" "no" "t1").1
      = (do_action c7_env_ok sample_emps c7_db (some "alice") (some "admin")
          PermsCookie.absent "reject" "no" "t1").1 ∧
    (do_action c7_env_fail sample_emps c7_db (some "alice") (some "admin")
        PermsCookie.absent "reject" "no" "t1").1.approval.status = "rejected" := by
  exact ⟨rfl, rfl, rfl, rfl⟩

/-- C8 (amended): every mutating handler only appends to the audit log,
except `delete_approver_step`, which appends its own `delete_step` row but
erases the audit rows of the step it deletes. -/
theorem audit_log_append_only_except_delete_step
    (env : MailEnv) (emps : List Employee) (db : DB) (user role : Option String)
    (permissions : PermsCookie) (form : EditForm) (display_name : String)
    (body : Option (List Int)) (file_names : List String) (file_id : Nat)
    (action comment now : String) (step_id : Nat) :
    (∃ new, (do_action env emps db user role permissions
        action comment now).1.actions = db.actions ++ new) ∧
    (∃ new, (add_approver_step emps db display_name user role permissions
        now).1.actions = db.actions ++ new) ∧
    (∃ new, (reorder_pending_steps db body user role permissions
        now).1.actions = db.actions ++ new) ∧
    (∃ new, (update_approval_details db form user role permissions
        now).1.actions = db.actions ++ new) ∧
    (∃ new, (add_approval_attachments db file_names user role permissions
        now).1.actions = db.actions ++ new) ∧
    (∃ new, (delete_approval_attachment db file_id user role permissions
        now).1.actions = db.actions ++ new) ∧
    (∃ new, (delete_approver_step db step_id user role permissions
          now).1.actions = db.actions ++ new ∨
      (delete_approver_step db step_id user role permissions now).1.actions
        = (db.actions.filter (fun r : ActionRow => r.step_id ≠ some step_id))
            ++ new) := by
  refine ⟨?_, ?_, ?_, ?_, ?_, ?_, ?_⟩
  · unfold do_action
    cases user with
    | none => exact ⟨[], (List.append_nil _).symm⟩
    | some u =>
      simp only
      repeat' split
      all_goals first
        | exact ⟨[], (List.append_nil _).symm⟩
        | exact ⟨_, rfl⟩
  · unfold add_approver_step
    cases user with
    | none => exact ⟨[], (List.append_nil _).symm⟩
    | some u =>
      simp only
      repeat' split
      all_goals first
        | exact ⟨[], (List.append_nil _).symm⟩
        | exact ⟨_, rfl⟩
  · unfold reorder_pending_steps
    cases user with
    | none => exact ⟨[], (List.append_nil _).symm⟩
    | some u =>
      simp only
      repeat' split
      all_goals first
        | exact ⟨[], (List.append_nil _).symm⟩
        | exact ⟨_, rfl⟩
  · unfold update_approval_details
    cases user with
    | none => exact ⟨[], (List.append_nil _).symm⟩
    | some u =>
      simp only
      repeat' split
      all_goals first
        | exact ⟨[], (List.append_nil _).symm⟩
        | exact ⟨_, rfl⟩
  · unfold add_approval_attachments
    cases user with
    | none => exact ⟨[], (List.append_nil _).symm⟩
    | some u =>
      simp only
      repeat' split
      all_goals first
        | exact ⟨[], (List.append_nil _).symm⟩
        | exact ⟨_, rfl⟩
  · unfold delete_approval_attachment
    cases user with
    | none => exact ⟨[], (List.append_nil _).symm⟩
    | some u =>
      simp only
      repeat' split
      all_goals first
        | exact ⟨[], (List.append_nil _).symm⟩
        | exact ⟨_, rfl⟩
  · unfold delete_approver_step
    cases user with
    | none => exact ⟨[], Or.inl (List.append_nil _).symm⟩
    | some u =>
      simp only
      repeat' split
      all_goals first
        | exact ⟨[], Or.inl (List.append_nil _).symm⟩
        | exact ⟨_, Or.inr rfl⟩

/-- The reachable state after adding a third approver `Carol` to the sample
request: the `add_approver` audit row carries `step_id = some 3`. -/
def c8_db1 : DB :=
  (add_approver_step sample_emps sample_db "Carol" (some "req") (some "admin")
    PermsCookie.absent "t1").1

/-- The state after deleting step 3 again. -/
def c8_db2 : DB :=
  (delete_approver_step c8_db1 3 (some "req") (some "admin")
    PermsCookie.absent "t2").1

/-- C8 counterexample: the audit log is not append-only.  Deleting step 3
succeeds and erases the `add_approver` audit row that referenced it — a row
present before the operation is gone from the successor state. -/
theorem audit_rows_deleted_counterexample :
    (delete_approver_step c8_db1 3 (some "req") (some "admin")
        PermsCookie.absent "t2").2 = Except.ok Resp.json_ok ∧
    ∃ r ∈ c8_db1.actions, r.action = "add_approver" ∧ r ∉ c8_db2.actions := by
  refine ⟨rfl, ?_⟩
  decide
